import Mathlib

/-!
# wcpp: the counting pipeline of `src/wcpp.cpp`

A shallow embedding of the counters, the block decoder, the stream processor
and the aggregator of `wcpp`, followed by theorems about them.

Conventions of the embedding.

* A byte (`char` read as `unsigned char`) is a natural number, a wide
  character (`wchar_t`) an integer, a counter value (`long`) an integer.
* The thread-local counter singletons are the fields of `Globals`; every
  function that touches them takes the current `Globals` and returns the new one.
* The C library (`mbrtowc`, `iswspace`, `iswprint`, `wcwidth`, `MB_CUR_MAX`)
  is a parameter, `Locale`.
* `std::istream` is the list of byte chunks that successive `read` calls
  deliver; the file system is a parameter, `FileSystem`.
-/

namespace Wcpp

/-- One byte of input, as the value of an `unsigned char`. -/
abbrev Byte := Nat

/-- A wide character, `wchar_t`. -/
abbrev WChar := Int

/-- The value `static_cast<std::size_t>(-1)` on a 64-bit target, `2 ^ 64 - 1`. -/
def size_t_neg1 : Nat := 18446744073709551615

/-- The value `static_cast<std::size_t>(-2)` on a 64-bit target, `2 ^ 64 - 2`. -/
def size_t_neg2 : Nat := 18446744073709551614

/-- The C library as the program sees it. `mbrtowc ps s` stands for the call
`mbrtowc(&wc, cp, remaining, &ps)` where `s` holds the `remaining` bytes at `cp`;
it yields the returned `size_t`, the wide character stored in `wc` and the
updated shift state. `ps0` is the zero-initialised state `std::mbstate_t ps{}`. -/
structure Locale where
  MbState : Type
  ps0 : MbState
  MB_CUR_MAX : Nat
  mbrtowc : MbState → List Byte → Nat × WChar × MbState
  iswspace : WChar → Bool
  iswprint : WChar → Bool
  wcwidth : WChar → Int

/-- The base class `counter_t`: fields `active` and `count`. -/
structure counter_t where
  active : Bool := false
  count : Int := 0
deriving DecidableEq, Repr

/-- The method `counter_t::reset`: `count = 0; active = true;`. -/
def counter_t.reset (_c : counter_t) : counter_t :=
  { count := 0, active := true }

/-- The class `longest_line_counter_t`: a `counter_t` with the private field
`current_length`. -/
structure longest_line_counter_t extends counter_t where
  current_length : Int := 0
deriving DecidableEq, Repr

/-- The class `word_counter_t`: a `counter_t` with the private field `in_word`. -/
structure word_counter_t extends counter_t where
  in_word : Bool := false
deriving DecidableEq, Repr

/-- The inherited `reset` on a `longest_line_counter_t`: it is
`counter_t::reset`, which knows nothing of `current_length`. -/
def longest_line_counter_t.reset (c : longest_line_counter_t) : longest_line_counter_t :=
  { c with tocounter_t := c.tocounter_t.reset }

/-- The inherited `reset` on a `word_counter_t`: it is `counter_t::reset`,
which knows nothing of `in_word`. -/
def word_counter_t.reset (c : word_counter_t) : word_counter_t :=
  { c with tocounter_t := c.tocounter_t.reset }

/-- The class `byte_counter_t` adds no field to `counter_t`. -/
abbrev byte_counter_t := counter_t

/-- The class `char_counter_t` adds no field to `counter_t`. -/
abbrev char_counter_t := counter_t

/-- The class `line_counter_t` adds no field to `counter_t`. -/
abbrev line_counter_t := counter_t

/-- The method `byte_counter_t::process_wchar`: `count += num_bytes`. -/
def byte_counter_t.process_wchar (c : counter_t) (_wc : WChar) (num_bytes : Nat)
    (_error : Bool) : counter_t :=
  { c with count := c.count + num_bytes }

/-- The method `char_counter_t::process_wchar`. -/
def char_counter_t.process_wchar (L : Locale) (c : counter_t) (_wc : WChar)
    (num_bytes : Nat) (error : Bool) : counter_t :=
  if L.MB_CUR_MAX = 1 then
    { c with count := c.count + num_bytes }
  else
    if error then c
    else { c with count := c.count + 1 }

/-- The method `line_counter_t::process_wchar`: `count += (wc == 0x0A)` for a
unit that is no error. -/
def line_counter_t.process_wchar (c : counter_t) (wc : WChar) (_num_bytes : Nat)
    (error : Bool) : counter_t :=
  if error then c
  else { c with count := c.count + (if wc = 10 then 1 else 0) }

/-- The method `longest_line_counter_t::process_wchar`. The C remainder
`current_length % 8` on a `long` is truncated division, `Int.tmod`. -/
def longest_line_counter_t.process_wchar (L : Locale) (c : longest_line_counter_t)
    (wc : WChar) (_num_bytes : Nat) (error : Bool) : longest_line_counter_t :=
  if error then c
  else if wc = 9 then
    { c with current_length := c.current_length + (8 - Int.tmod c.current_length 8) }
  else
    let width := L.wcwidth wc
    let c1 : longest_line_counter_t :=
      if wc ≠ 10 ∧ L.iswprint wc = true ∧ width > 0 then
        { c with current_length := c.current_length + width }
      else c
    let c2 : longest_line_counter_t :=
      if c1.current_length > c1.count then
        { c1 with count := c1.current_length }
      else c1
    if wc = 10 ∨ wc = 13 ∨ wc = 12 then
      { c2 with current_length := 0 }
    else c2

/-- The function `is_word_sep`: line feed, carriage return, form feed, vertical
tab and space, or whatever `iswspace` accepts. -/
def is_word_sep (L : Locale) (wc : WChar) : Bool :=
  if wc = 10 ∨ wc = 13 ∨ wc = 12 ∨ wc = 11 ∨ wc = 32 then true
  else L.iswspace wc

/-- The method `word_counter_t::process_wchar`. -/
def word_counter_t.process_wchar (L : Locale) (c : word_counter_t) (wc : WChar)
    (_num_bytes : Nat) (error : Bool) : word_counter_t :=
  if error then c
  else
    let whitespace := is_word_sep L wc
    let printable := L.iswprint wc
    if c.in_word = true ∧ whitespace = true then
      { c with in_word := false }
    else if c.in_word = false ∧ printable = true ∧ whitespace = false then
      { c with in_word := true, count := c.count + 1 }
    else c

/-- The byte values accepted by the switch of `is_basic`, in the order of its
case labels: tab, vertical tab, form feed; space to slash without the dollar
sign; the digits; colon to question mark; the capitals; the bracket row; the
small letters; the brace row. -/
def basic_codes : List Byte :=
  [9, 11, 12,
   32, 33, 34, 35, 37,
   38, 39, 40, 41, 42,
   43, 44, 45, 46, 47,
   48, 49, 50, 51, 52,
   53, 54, 55, 56, 57,
   58, 59, 60, 61, 62,
   63,
   65, 66, 67, 68, 69,
   70, 71, 72, 73, 74,
   75, 76, 77, 78, 79,
   80, 81, 82, 83, 84,
   85, 86, 87, 88, 89,
   90,
   91, 92, 93, 94, 95,
   97, 98, 99, 100, 101,
   102, 103, 104, 105, 106,
   107, 108, 109, 110, 111,
   112, 113, 114, 115, 116,
   117, 118, 119, 120, 121,
   122, 123, 124, 125, 126]

/-- The function `is_basic`. -/
def is_basic (c : Byte) : Bool :=
  basic_codes.contains c

/-- The thread-local counter singletons of the program. -/
structure Globals where
  byte_counter : byte_counter_t := {}
  char_counter : char_counter_t := {}
  line_counter : line_counter_t := {}
  longest_line_counter : longest_line_counter_t := {}
  word_counter : word_counter_t := {}
deriving DecidableEq, Repr

/-- The state of the singletons at program start: every counter inactive,
every field zero or false. -/
def Globals.fresh : Globals := {}

/-- The free function `process_wchar`: hand the unit to every active counter. -/
def process_wchar (L : Locale) (g : Globals) (wc : WChar) (num_bytes : Nat)
    (error : Bool) : Globals :=
  let g1 : Globals :=
    if g.byte_counter.active then
      { g with byte_counter := byte_counter_t.process_wchar g.byte_counter wc num_bytes error }
    else g
  let g2 : Globals :=
    if g1.char_counter.active then
      { g1 with char_counter := char_counter_t.process_wchar L g1.char_counter wc num_bytes error }
    else g1
  let g3 : Globals :=
    if g2.line_counter.active then
      { g2 with line_counter := line_counter_t.process_wchar g2.line_counter wc num_bytes error }
    else g2
  let g4 : Globals :=
    if g3.longest_line_counter.active then
      { g3 with longest_line_counter :=
          g3.longest_line_counter.process_wchar L wc num_bytes error }
    else g3
  if g4.word_counter.active then
    { g4 with word_counter := g4.word_counter.process_wchar L wc num_bytes error }
  else g4

/-- A decoded unit, the argument triple of one `process_wchar` call. -/
structure decoded_unit where
  wc : WChar
  num_bytes : Nat
  error : Bool
deriving DecidableEq, Repr

/-- The loop of `process_block`. `cp` is the part of the buffer from the
pointer `cp` to its end, so that `remaining` is `cp.length`; `fuel` bounds the
number of iterations. A result of `mbrtowc` that its C contract excludes (a
length above the `remaining` bytes it was given) leaves the run undefined,
`none`; on every other path each iteration consumes at least one byte, the
unit length is at most the `unsigned` block length, and the conversion of
`num_bytes` from `long` to `unsigned` at the call of `process_wchar` keeps it. -/
def process_block_loop (L : Locale) (eof : Bool) :
    Nat → L.MbState → List Byte → Globals → Option (Nat × Globals)
  | _, _, [], g => some (0, g)
  | 0, _, _ :: _, _ => none
  | fuel + 1, ps, c :: cs, g =>
    if is_basic c = true then
      process_block_loop L eof fuel ps cs (process_wchar L g (c : Int) 1 false)
    else
      let r := L.mbrtowc ps (c :: cs)
      if r.1 = 0 then
        process_block_loop L eof fuel r.2.2 cs (process_wchar L g r.2.1 1 false)
      else if r.1 = size_t_neg1 then
        process_block_loop L eof fuel r.2.2 cs (process_wchar L g r.2.1 1 true)
      else if r.1 = size_t_neg2 then
        if eof = false then some ((c :: cs).length, g)
        else
          process_block_loop L eof fuel r.2.2 []
            (process_wchar L g r.2.1 (c :: cs).length true)
      else if r.1 ≤ (c :: cs).length then
        process_block_loop L eof fuel r.2.2 ((c :: cs).drop r.1)
          (process_wchar L g r.2.1 r.1 false)
      else none

/-- The function `process_block` on the block `cp` of `n = cp.length` bytes:
the shift state starts from `ps{}` at every call. It returns the number of
undecoded trailing bytes and the new counters. -/
def process_block (L : Locale) (cp : List Byte) (eof : Bool) (g : Globals) :
    Option (Nat × Globals) :=
  process_block_loop L eof cp.length L.ps0 cp g

/-- The first occurrence of `c` in `s`, as the part of `s` that starts there:
the C function `memchr`, `none` for the null pointer. -/
def memchr : List Byte → Byte → Option (List Byte)
  | [], _ => none
  | b :: bs, c => if b = c then some (b :: bs) else memchr bs c

/-- The loop of `process_block_lines_only`; `cur` is the part of the block from
the pointer `cur` to the end of the block, `lc` is `line_counter`. -/
def process_block_lines_only_loop : Nat → List Byte → line_counter_t → line_counter_t
  | 0, _, lc => lc
  | fuel + 1, cur, lc =>
    match memchr cur 10 with
    | none => lc
    | some found =>
      process_block_lines_only_loop fuel (found.drop 1) { lc with count := lc.count + 1 }

/-- The function `process_block_lines_only`: count the line feeds of the block
into `line_counter.count`, return 0. -/
def process_block_lines_only (cp : List Byte) (_eof : Bool) (g : Globals) :
    Option (Nat × Globals) :=
  some (0, { g with line_counter :=
    process_block_lines_only_loop (cp.length + 1) cp g.line_counter })

/-- The constant `block_read` of `process_stream`. -/
def block_read : Nat := 128 * 1024

/-- The size of a `wchar_t`, the slack of the buffer of `process_stream`
beyond `block_read`. -/
def sizeof_wchar_t : Nat := 4

/-- The function `process_stream`. `is` lists the chunks that the successive
`is->read(buf + n_remaining, block_read)` calls deliver, `buf` holds the
`n_remaining` bytes kept at the front of the buffer; `is->peek() == EOF` holds
when no byte is left in `is`. The array is `char buf[block_read +
sizeof(wchar_t)]` and the read is given room for `block_read` bytes from
`buf + n_remaining` on: that range lies inside the array only when
`n_remaining <= sizeof(wchar_t)`, which the source assumes (its assertion is
commented out) and does not check. A read reached with a larger residual can
write past the array, and such a run is undefined, `none`. -/
def process_stream (process_block_func : List Byte → Bool → Globals → Option (Nat × Globals)) :
    List (List Byte) → List Byte → Globals → Option Globals
  | [], _, g => some g
  | chunk :: is, buf, g =>
    if (chunk :: is).flatten = [] then some g
    else if sizeof_wchar_t < buf.length then none
    else
      let available := buf ++ chunk
      if available.length < 1 then some g
      else
        match process_block_func available (decide (is.flatten = [])) g with
        | none => none
        | some (n_remaining, g1) =>
          process_stream process_block_func is
            (available.drop (available.length - n_remaining)) g1

/-- The singleton a `counter_t*` of a `counter_vector_t` points to. -/
inductive counter_id where
  | byte_counter
  | char_counter
  | line_counter
  | longest_line_counter
  | word_counter
deriving DecidableEq, Repr

/-- The `counter_t` part of the singleton behind a pointer. -/
def Globals.deref (g : Globals) : counter_id → counter_t
  | .byte_counter => g.byte_counter
  | .char_counter => g.char_counter
  | .line_counter => g.line_counter
  | .longest_line_counter => g.longest_line_counter.tocounter_t
  | .word_counter => g.word_counter.tocounter_t

/-- The function `counters_from_arguments`; `flags` is `cl_args.flags`, a set
of strings. It returns the vector of pointers and the singletons after the
resets. -/
def counters_from_arguments (flags : Finset String) (g : Globals) :
    List counter_id × Globals :=
  if flags.card = 0 then
    let g1 : Globals := { g with line_counter := g.line_counter.reset }
    let g2 : Globals := { g1 with word_counter := g1.word_counter.reset }
    let g3 : Globals := { g2 with byte_counter := g2.byte_counter.reset }
    ([counter_id.line_counter, counter_id.word_counter, counter_id.byte_counter], g3)
  else
    let s0 : List counter_id × Globals := ([], g)
    let s1 : List counter_id × Globals :=
      if "-l" ∈ flags ∨ "--lines" ∈ flags then
        (s0.1 ++ [counter_id.line_counter],
          { s0.2 with line_counter := s0.2.line_counter.reset })
      else s0
    let s2 : List counter_id × Globals :=
      if "-w" ∈ flags ∨ "--words" ∈ flags then
        (s1.1 ++ [counter_id.word_counter],
          { s1.2 with word_counter := s1.2.word_counter.reset })
      else s1
    let s3 : List counter_id × Globals :=
      if "-m" ∈ flags ∨ "--chars" ∈ flags then
        (s2.1 ++ [counter_id.char_counter],
          { s2.2 with char_counter := s2.2.char_counter.reset })
      else s2
    let s4 : List counter_id × Globals :=
      if "-c" ∈ flags ∨ "--bytes" ∈ flags then
        (s3.1 ++ [counter_id.byte_counter],
          { s3.2 with byte_counter := s3.2.byte_counter.reset })
      else s3
    if "-L" ∈ flags ∨ "--max-line-length" ∈ flags then
      (s4.1 ++ [counter_id.longest_line_counter],
        { s4.2 with longest_line_counter := s4.2.longest_line_counter.reset })
    else s4

/-- The conversion of a `long` to an `int` (32 bits, two's complement), as
`counts.push_back(c->count)` performs it. -/
def int_of_long (x : Int) : Int :=
  (x + 2 ^ 31) % 2 ^ 32 - 2 ^ 31

/-- The function `to_counts`: the counts behind the pointers, as a vector of `int`. -/
def to_counts (counters : List counter_id) (g : Globals) : List Int :=
  counters.map (fun c => int_of_long (g.deref c).count)

/-- The function `tabular::tabulate`: the decimal text of every count, then
the suffix when it is not empty. -/
def tabulate (counts : List Int) (suffix : String) : List String :=
  counts.map toString ++ (if suffix.length ≠ 0 then [suffix] else [])

/-- The files as the program can observe them: `st_size` is what
`stat(fname, &st)` leaves in `st.st_size`, `contents` the bytes an
`std::ifstream` on the name delivers, `none` when it cannot be opened. -/
structure FileSystem where
  st_size : String → Int
  contents : String → Option (List Byte)

/-- The chunks an `std::ifstream` over `data` delivers to reads of
`block_read` bytes: full blocks, then the rest. -/
def ifstream_reads : Nat → List Byte → List (List Byte)
  | 0, _ => []
  | fuel + 1, data =>
    if data = [] then []
    else data.take block_read :: ifstream_reads fuel (data.drop block_read)

/-- The method `byte_counter_t::process_file`: `count = st.st_size`. -/
def byte_counter_t.process_file (fs : FileSystem) (c : byte_counter_t) (fname : String) :
    byte_counter_t :=
  { c with count := fs.st_size fname }

/-- The method `line_counter_t::process_file`, called on the singleton
`line_counter`: when the file opens, stream it through
`process_block_lines_only`. -/
def line_counter_t.process_file (fs : FileSystem) (fname : String) (g : Globals) :
    Option Globals :=
  match fs.contents fname with
  | some data => process_stream process_block_lines_only (ifstream_reads data.length data) [] g
  | none => some g

/-- The function `process_stdin`; `cin` lists the chunks that reads of the
standard input deliver. It returns the table and the singletons. -/
def process_stdin (L : Locale) (cin : List (List Byte)) (flags : Finset String)
    (g : Globals) : Option (List (List String) × Globals) :=
  let cg := counters_from_arguments flags g
  match process_stream (process_block L) cin [] cg.2 with
  | none => none
  | some g1 => some ([tabulate (to_counts cg.1 g1) ""], g1)

/-- The function `process_file`. The message on the diagnostic stream is not
part of the result. -/
def process_file (L : Locale) (fs : FileSystem) (fname : String) (flags : Finset String)
    (g : Globals) : Option (List Int × Globals) :=
  let cg := counters_from_arguments flags g
  let g1 : Globals :=
    if cg.2.byte_counter.active then
      { cg.2 with byte_counter :=
          { byte_counter_t.process_file fs cg.2.byte_counter fname with active := false } }
    else cg.2
  let g2 : Option Globals :=
    if g1.line_counter.active then
      (line_counter_t.process_file fs fname g1).map
        (fun g => { g with line_counter := { g.line_counter with active := false } })
    else some g1
  match g2 with
  | none => none
  | some g2 =>
    let count_left := g2.char_counter.active || g2.word_counter.active
      || g2.longest_line_counter.active
    let g3 : Option Globals :=
      if count_left then
        match fs.contents fname with
        | some data => process_stream (process_block L) (ifstream_reads data.length data) [] g2
        | none => some g2
      else some g2
    g3.map (fun g => (to_counts cg.1 g, g))

/-- The inner loop of `process_files`: `total_counters[i] += counts[i]` for
every index of `total_counters`. Reading `counts` past its end is undefined,
`none`; the `int` sum wraps to 32 bits. -/
def add_counts : List Int → List Int → Option (List Int)
  | [], _ => some []
  | _ :: _, [] => none
  | t :: ts, c :: cs => (add_counts ts cs).map (fun r => int_of_long (t + c) :: r)

/-- The `for_each` of `process_files` over the file names: one row a file,
the totals accumulated. -/
def process_files_loop (L : Locale) (fs : FileSystem) (flags : Finset String) :
    List String → List (List String) → List Int → Globals →
      Option (List (List String) × List Int × Globals)
  | [], table, total_counters, g => some (table, total_counters, g)
  | fname :: rest, table, total_counters, g =>
    match process_file L fs fname flags g with
    | none => none
    | some (counts, g1) =>
      match add_counts total_counters counts with
      | none => none
      | some totals =>
        process_files_loop L fs flags rest (table ++ [tabulate counts fname]) totals g1

/-- The function `process_files`: `total_counters` has `cl_args.flags.size()`
entries, all zero; the totals row is added for more than one file name. -/
def process_files (L : Locale) (fs : FileSystem) (flags : Finset String)
    (filename_args : List String) (g : Globals) : Option (List (List String) × Globals) :=
  match process_files_loop L fs flags filename_args [] (List.replicate flags.card 0) g with
  | none => none
  | some (table, total_counters, g1) =>
    if filename_args.length > 1 then
      some (table ++ [tabulate total_counters "total"], g1)
    else some (table, g1)

/-- A sample single-byte locale in the manner of the POSIX locale: the seven-bit
codes decode to themselves, a byte of 128 or more is an encoding error; white
space is space and the codes 9 to 13, the printable characters are 32 to 126,
each of width 1. Used to run the program on concrete inputs. -/
def c_locale : Locale where
  MbState := Unit
  ps0 := ()
  MB_CUR_MAX := 1
  mbrtowc := fun _ s =>
    match s with
    | [] => (size_t_neg2, 0, ())
    | b :: _ =>
      if b = 0 then (0, 0, ())
      else if b < 128 then (1, (b : Int), ())
      else (size_t_neg1, 0, ())
  iswspace := fun wc => decide (wc = 32 ∨ (9 ≤ wc ∧ wc ≤ 13))
  iswprint := fun wc => decide (32 ≤ wc ∧ wc ≤ 126)
  wcwidth := fun wc => if wc = 0 then 0 else if 32 ≤ wc ∧ wc ≤ 126 then 1 else -1

/-- A continuation byte of UTF-8, `10xxxxxx`. -/
def utf8_cont (b : Byte) : Bool :=
  decide (128 ≤ b ∧ b < 192)

/-- The second byte of a three-byte sequence that starts with `b0`: a
continuation byte that yields neither an overlong form nor a surrogate. -/
def utf8_second3 (b0 b1 : Byte) : Bool :=
  utf8_cont b1 && decide (b0 = 224 → 160 ≤ b1) && decide (b0 = 237 → b1 < 160)

/-- The second byte of a four-byte sequence that starts with `b0`: a
continuation byte that yields neither an overlong form nor a value above
U+10FFFF. -/
def utf8_second4 (b0 b1 : Byte) : Bool :=
  utf8_cont b1 && decide (b0 = 240 → 144 ≤ b1) && decide (b0 = 244 → b1 < 144)

/-- A two-byte sequence with the lead byte `b0`, from the bytes after it. -/
def utf8_seq2 (b0 : Byte) : List Byte → Nat × WChar
  | [] => (size_t_neg2, 0)
  | b1 :: _ =>
    if utf8_cont b1 = true then (2, (((b0 - 192) * 64 + (b1 - 128) : Nat) : Int))
    else (size_t_neg1, 0)

/-- A three-byte sequence with the lead byte `b0`, from the bytes after it. -/
def utf8_seq3 (b0 : Byte) : List Byte → Nat × WChar
  | [] => (size_t_neg2, 0)
  | [b1] => if utf8_second3 b0 b1 = true then (size_t_neg2, 0) else (size_t_neg1, 0)
  | b1 :: b2 :: _ =>
    if utf8_second3 b0 b1 = true then
      if utf8_cont b2 = true then
        (3, ((((b0 - 224) * 64 + (b1 - 128)) * 64 + (b2 - 128) : Nat) : Int))
      else (size_t_neg1, 0)
    else (size_t_neg1, 0)

/-- A four-byte sequence with the lead byte `b0`, from the bytes after it. -/
def utf8_seq4 (b0 : Byte) : List Byte → Nat × WChar
  | [] => (size_t_neg2, 0)
  | [b1] => if utf8_second4 b0 b1 = true then (size_t_neg2, 0) else (size_t_neg1, 0)
  | [b1, b2] =>
    if utf8_second4 b0 b1 = true then
      if utf8_cont b2 = true then (size_t_neg2, 0) else (size_t_neg1, 0)
    else (size_t_neg1, 0)
  | b1 :: b2 :: b3 :: _ =>
    if utf8_second4 b0 b1 = true then
      if utf8_cont b2 = true then
        if utf8_cont b3 = true then
          (4, (((((b0 - 240) * 64 + (b1 - 128)) * 64 + (b2 - 128)) * 64
            + (b3 - 128) : Nat) : Int))
        else (size_t_neg1, 0)
      else (size_t_neg1, 0)
    else (size_t_neg1, 0)

/-- One decoding step of UTF-8 on the bytes `s`: the returned `size_t` of
`mbrtowc` and the character. Sequences of one to four bytes; overlong forms,
surrogates and values above U+10FFFF are encoding errors, a proper beginning
of a sequence is incomplete. -/
def utf8_decode : List Byte → Nat × WChar
  | [] => (size_t_neg2, 0)
  | b0 :: rest =>
    if b0 = 0 then (0, 0)
    else if b0 < 128 then (1, (b0 : Int))
    else if b0 < 194 then (size_t_neg1, 0)
    else if b0 < 224 then utf8_seq2 b0 rest
    else if b0 < 240 then utf8_seq3 b0 rest
    else if b0 < 245 then utf8_seq4 b0 rest
    else (size_t_neg1, 0)

/-- A sample multi-byte locale with the UTF-8 encoding (stateless, at most four
bytes a character): white space is the ASCII white space and U+3000, the
printable characters are 32 to 126 and everything from U+00A0 on, of width 2
in the CJK block U+4E00 to U+9FFF and of width 1 elsewhere. Used to run the
program on concrete inputs. -/
def utf8_locale : Locale where
  MbState := Unit
  ps0 := ()
  MB_CUR_MAX := 6
  mbrtowc := fun _ s => ((utf8_decode s).1, (utf8_decode s).2, ())
  iswspace := fun wc => decide (wc = 32 ∨ (9 ≤ wc ∧ wc ≤ 13) ∨ wc = 12288)
  iswprint := fun wc => decide ((32 ≤ wc ∧ wc ≤ 126) ∨ 160 ≤ wc)
  wcwidth := fun wc =>
    if wc = 0 then 0
    else if 32 ≤ wc ∧ wc ≤ 126 then 1
    else if 19968 ≤ wc ∧ wc ≤ 40959 then 2
    else if 160 ≤ wc then 1
    else -1

/-- A sample file system over an association list: a listed name opens and has
the size of its contents, any other name does not open and `stat` leaves 0. -/
def sample_fs (files : List (String × List Byte)) : FileSystem where
  st_size := fun fname =>
    match files.lookup fname with
    | some data => (data.length : Int)
    | none => 0
  contents := fun fname => files.lookup fname

/-! ## Notions used to state the properties -/

/-- The units that the loop of `process_block` hands to `process_wchar`, in
order, and the residual it returns: the same loop with the calls recorded
instead of performed. -/
def block_units_loop (L : Locale) (eof : Bool) :
    Nat → L.MbState → List Byte → Option (List decoded_unit × Nat)
  | _, _, [] => some ([], 0)
  | 0, _, _ :: _ => none
  | fuel + 1, ps, c :: cs =>
    if is_basic c = true then
      (block_units_loop L eof fuel ps cs).map
        (fun r => (decoded_unit.mk (c : Int) 1 false :: r.1, r.2))
    else
      let r := L.mbrtowc ps (c :: cs)
      if r.1 = 0 then
        (block_units_loop L eof fuel r.2.2 cs).map
          (fun q => (decoded_unit.mk r.2.1 1 false :: q.1, q.2))
      else if r.1 = size_t_neg1 then
        (block_units_loop L eof fuel r.2.2 cs).map
          (fun q => (decoded_unit.mk r.2.1 1 true :: q.1, q.2))
      else if r.1 = size_t_neg2 then
        if eof = false then some ([], (c :: cs).length)
        else
          (block_units_loop L eof fuel r.2.2 []).map
            (fun q => (decoded_unit.mk r.2.1 (c :: cs).length true :: q.1, q.2))
      else if r.1 ≤ (c :: cs).length then
        (block_units_loop L eof fuel r.2.2 ((c :: cs).drop r.1)).map
          (fun q => (decoded_unit.mk r.2.1 r.1 false :: q.1, q.2))
      else none

/-- The units and the residual of one `process_block` call on the block `cp`. -/
def block_units (L : Locale) (cp : List Byte) (eof : Bool) :
    Option (List decoded_unit × Nat) :=
  block_units_loop L eof cp.length L.ps0 cp

/-- The singletons after `process_wchar` has been called on each unit in turn. -/
def feed (L : Locale) (g : Globals) (us : List decoded_unit) : Globals :=
  us.foldl (fun g u => process_wchar L g u.wc u.num_bytes u.error) g

/-- A word counter after it has consumed each unit in turn. -/
def word_feed (L : Locale) (c : word_counter_t) (us : List decoded_unit) : word_counter_t :=
  us.foldl (fun c u => c.process_wchar L u.wc u.num_bytes u.error) c

/-- A longest-line counter after it has consumed each unit in turn. -/
def longest_feed (L : Locale) (c : longest_line_counter_t) (us : List decoded_unit) :
    longest_line_counter_t :=
  us.foldl (fun c u => c.process_wchar L u.wc u.num_bytes u.error) c

/-- The contract of `mbrtowc` in the C standard, as far as the return value
goes: on `n` bytes it returns `(size_t)-1`, `(size_t)-2`, or a length of at
most `n` (0 for the null character). -/
def mbrtowc_contract (L : Locale) : Prop :=
  ∀ (ps : L.MbState) (s : List Byte),
    (L.mbrtowc ps s).1 = size_t_neg1 ∨ (L.mbrtowc ps s).1 = size_t_neg2
      ∨ (L.mbrtowc ps s).1 ≤ s.length

/-- The encoding of the locale is stateless: the value `mbrtowc` returns does
not depend on the shift state. -/
def mbrtowc_stateless (L : Locale) : Prop :=
  ∀ (ps : L.MbState) (s : List Byte), (L.mbrtowc ps s).1 = (L.mbrtowc L.ps0 s).1

/-- More bytes after a decided sequence do not change the decision: when
`mbrtowc` returns anything but `(size_t)-2` on `s`, it returns the same on `s`
followed by further bytes. -/
def mbrtowc_stable (L : Locale) : Prop :=
  ∀ (ps : L.MbState) (s t : List Byte), (L.mbrtowc ps s).1 ≠ size_t_neg2 →
    (L.mbrtowc ps (s ++ t)).1 = (L.mbrtowc ps s).1

/-- What the byte and character counters see of a unit: its length and its
error flag. -/
def unit_shape (u : decoded_unit) : Nat × Bool := (u.num_bytes, u.error)

/-- The outcome of a block with every unit cut down to its shape. -/
def shapes (r : List decoded_unit × Nat) : List (Nat × Bool) × Nat :=
  (r.1.map unit_shape, r.2)

/-- Whether the flag set asks for the counter, by its short or its long flag. -/
def requested (flags : Finset String) : counter_id → Bool
  | .line_counter => decide ("-l" ∈ flags ∨ "--lines" ∈ flags)
  | .word_counter => decide ("-w" ∈ flags ∨ "--words" ∈ flags)
  | .char_counter => decide ("-m" ∈ flags ∨ "--chars" ∈ flags)
  | .byte_counter => decide ("-c" ∈ flags ∨ "--bytes" ∈ flags)
  | .longest_line_counter => decide ("-L" ∈ flags ∨ "--max-line-length" ∈ flags)

/-! ## Printing and the entry point -/

/-- The function `tabular::get_max_width`: the longest cell, in bytes, over
the rows, the last cell of each row left out when `skip_last` is set. -/
def get_max_width (table : List (List String)) (skip_last : Bool) : Nat :=
  table.foldl
    (fun max_width row =>
      (if skip_last = true then row.dropLast else row).foldl
        (fun max_width s => max max_width s.utf8ByteSize) max_width)
    0

/-- The effect of `os << std::setfill(0x20) << std::setw(w) << s`: the cell
`s` after as many spaces as it is short of `w` bytes. -/
def setw (w : Nat) (s : String) : String :=
  String.mk (List.replicate (w - s.utf8ByteSize) (Char.ofNat 32)) ++ s

/-- The function `tabular::print_table`, as the text it writes to `os`. A table
of one row with one cell is written bare; otherwise every cell is right-aligned
in `get_max_width + 1` columns and, with `left_justify_last`, the last cell of
a row follows a single space. -/
def print_table (table : List (List String)) (left_justify_last : Bool) : String :=
  if table.length = 1 ∧ (table.headD []).length = 1 then
    (table.headD []).headD "" ++ "\n"
  else
    let w := get_max_width table left_justify_last + 1
    String.join (table.map (fun row =>
      String.join ((if left_justify_last = true then row.dropLast else row).map (setw w))
        ++ (if left_justify_last = true then " " ++ row.getLastD "" else "")
        ++ "\n"))

/-- The function `main` after the command line has been parsed and checked:
`flags` and `filename_args` are the fields of `cl_args` (the names of
`--files0-from` included), `cin` the chunks of the standard input. It yields
the text written to the standard output. -/
def main (L : Locale) (fs : FileSystem) (cin : List (List Byte)) (flags : Finset String)
    (filename_args : List String) (g : Globals) : Option String :=
  if filename_args.length = 0 then
    (process_stdin L cin flags g).map (fun r => print_table r.1 false)
  else
    (process_files L fs flags filename_args g).map (fun r => print_table r.1 true)

/-! ## Further notions used to state the properties -/

/-- The unit of a byte decoded as itself: the character with the code of the
byte, length 1, no error. -/
def single_byte_unit (b : Byte) : decoded_unit :=
  decoded_unit.mk (b : Int) 1 false

/-- A sample multi-byte locale whose `mbrtowc` is restartable the way the C
standard describes it: the shift state holds the bytes of an incomplete
sequence seen so far, a call decodes those bytes followed by the new ones,
an incomplete sequence is absorbed into the state, a completed character and
an encoding error clear it. The encoding is UTF-8, the character classes those
of `utf8_locale`. -/
def utf8_restart_locale : Locale where
  MbState := List Byte
  ps0 := []
  MB_CUR_MAX := 6
  mbrtowc := fun ps s =>
    if (utf8_decode (ps ++ s)).1 = size_t_neg2 then (size_t_neg2, 0, ps ++ s)
    else if (utf8_decode (ps ++ s)).1 = size_t_neg1 then (size_t_neg1, 0, [])
    else if (utf8_decode (ps ++ s)).1 = 0 then (0, 0, [])
    else ((utf8_decode (ps ++ s)).1 - ps.length, (utf8_decode (ps ++ s)).2, [])
  iswspace := utf8_locale.iswspace
  iswprint := utf8_locale.iswprint
  wcwidth := utf8_locale.wcwidth

/-- The shift state `ps` at the moment the loop of `process_block` is left:
the same loop, keeping the state instead of the counters. -/
def block_end_state_loop (L : Locale) (eof : Bool) :
    Nat → L.MbState → List Byte → Option L.MbState
  | _, ps, [] => some ps
  | 0, _, _ :: _ => none
  | fuel + 1, ps, c :: cs =>
    if is_basic c = true then block_end_state_loop L eof fuel ps cs
    else
      let r := L.mbrtowc ps (c :: cs)
      if r.1 = 0 then block_end_state_loop L eof fuel r.2.2 cs
      else if r.1 = size_t_neg1 then block_end_state_loop L eof fuel r.2.2 cs
      else if r.1 = size_t_neg2 then
        if eof = false then some r.2.2
        else block_end_state_loop L eof fuel r.2.2 []
      else if r.1 ≤ (c :: cs).length then
        block_end_state_loop L eof fuel r.2.2 ((c :: cs).drop r.1)
      else none

/-- The shift state that a `process_block` call on the block `cp` leaves
behind in its local `ps`. -/
def block_end_state (L : Locale) (cp : List Byte) (eof : Bool) : Option L.MbState :=
  block_end_state_loop L eof cp.length L.ps0 cp

/-- The loop of `process_block` on the block `cp`, entered with the shift
state `ps` in place of `ps{}`. -/
def process_block_from (L : Locale) (ps : L.MbState) (cp : List Byte) (eof : Bool)
    (g : Globals) : Option (Nat × Globals) :=
  process_block_loop L eof cp.length ps cp g

/-- In the words of the specification: a unit starts a word when it is no
error, printable, no white space, and the counter is not inside a word. -/
def starts_word (L : Locale) (inside : Bool) (u : decoded_unit) : Bool :=
  !u.error && L.iswprint u.wc && !is_word_sep L u.wc && !inside

/-- In the words of the specification: inside-a-word becomes true at a unit
that starts a word, false at a white-space unit that is no error, and is
unchanged by any other unit. -/
def inside_after (L : Locale) (inside : Bool) (u : decoded_unit) : Bool :=
  if starts_word L inside u = true then true
  else if (!u.error && is_word_sep L u.wc) = true then false
  else inside

/-- In the words of the specification: the number of units of the sequence
that start a word, from the given inside-a-word state. -/
def words_started (L : Locale) : Bool → List decoded_unit → Nat
  | _, [] => 0
  | inside, u :: us =>
    (if starts_word L inside u = true then 1 else 0)
      + words_started L (inside_after L inside u) us

/-- The number of maximal runs of units that are no white space: the
non-empty pieces between the white-space units. -/
def maximal_runs (L : Locale) (us : List decoded_unit) : Nat :=
  ((us.splitOnP (fun u => is_word_sep L u.wc)).filter (fun r => !r.isEmpty)).length

/-- What makes a result of `mbrtowc` on the bytes `s` (the returned `size_t`
and the character) safe for counting line feeds by bytes: an incomplete
sequence holds no byte 0x0A, the byte skipped at an encoding error is not
0x0A, and a decoded character is the line feed exactly when the bytes it
consumed hold one byte 0x0A (they hold none otherwise). -/
def line_feed_safe_result (s : List Byte) (ret : Nat) (wc : WChar) : Prop :=
  (ret = size_t_neg2 → s.count 10 = 0)
  ∧ (ret = size_t_neg1 → (s.take 1).count 10 = 0)
  ∧ (ret = 0 → (s.take 1).count 10 = if wc = 10 then 1 else 0)
  ∧ (ret ≠ size_t_neg1 → ret ≠ size_t_neg2 → ret ≠ 0 →
      (s.take ret).count 10 = if wc = 10 then 1 else 0)

/-- The byte 0x0A stands for the line feed and for nothing else in the
encoding: every result of `mbrtowc` is safe for counting line feeds by bytes. -/
def mbrtowc_line_feed_safe (L : Locale) : Prop :=
  ∀ (ps : L.MbState) (s : List Byte),
    line_feed_safe_result s (L.mbrtowc ps s).1 (L.mbrtowc ps s).2.1

/-- The decode step reports an incomplete sequence only when fewer bytes than
the maximal encoding width remain. -/
def mbrtowc_incomplete_short (L : Locale) : Prop :=
  ∀ (ps : L.MbState) (s : List Byte),
    (L.mbrtowc ps s).1 = size_t_neg2 → s.length < sizeof_wchar_t

/-- The run of `process_stream` with its calls recorded: every block handed
to `process_block_func` with the residual it returned, then the bytes kept in
the buffer when the loop is left, then the counters. As in `process_stream`,
a read reached with more than `sizeof(wchar_t)` bytes kept leaves the run
undefined. -/
def process_stream_trace
    (process_block_func : List Byte → Bool → Globals → Option (Nat × Globals)) :
    List (List Byte) → List Byte → Globals →
      Option (List (List Byte × Nat) × List Byte × Globals)
  | [], buf, g => some ([], buf, g)
  | chunk :: is, buf, g =>
    if (chunk :: is).flatten = [] then some ([], buf, g)
    else if sizeof_wchar_t < buf.length then none
    else
      let available := buf ++ chunk
      if available.length < 1 then some ([], buf, g)
      else
        match process_block_func available (decide (is.flatten = [])) g with
        | none => none
        | some (n_remaining, g1) =>
          (process_stream_trace process_block_func is
            (available.drop (available.length - n_remaining)) g1).map
              (fun t => ((available, n_remaining) :: t.1, t.2.1, t.2.2))

/-! ## The decoder and the byte counter -/

theorem process_block_loop_eq_feed (L : Locale) (eof : Bool) (fuel : Nat) :
    ∀ (ps : L.MbState) (cp : List Byte) (g : Globals),
      process_block_loop L eof fuel ps cp g
        = (block_units_loop L eof fuel ps cp).map (fun r => (r.2, feed L g r.1)) := by
  induction fuel with
  | zero =>
    intro ps cp g
    cases cp <;> simp [process_block_loop, block_units_loop, feed]
  | succ fuel ih =>
    intro ps cp g
    cases cp with
    | nil => simp [process_block_loop, block_units_loop, feed]
    | cons c cs =>
      simp only [process_block_loop, block_units_loop]
      split_ifs <;> simp [ih, Option.map_map, Function.comp_def, feed]

theorem process_block_eq_feed (L : Locale) (cp : List Byte) (eof : Bool) (g : Globals) :
    process_block L cp eof g
      = (block_units L cp eof).map (fun r => (r.2, feed L g r.1)) :=
  process_block_loop_eq_feed L eof cp.length L.ps0 cp g

theorem block_units_loop_total (L : Locale) (hL : mbrtowc_contract L) (eof : Bool) :
    ∀ (fuel : Nat) (ps : L.MbState) (cp : List Byte), cp.length ≤ fuel →
      ∃ us k, block_units_loop L eof fuel ps cp = some (us, k)
        ∧ (∀ u ∈ us, 1 ≤ u.num_bytes)
        ∧ (us.map decoded_unit.num_bytes).sum + k = cp.length
        ∧ (eof = true → k = 0) := by
  intro fuel
  induction fuel with
  | zero =>
    intro ps cp h
    cases cp with
    | nil => exact ⟨[], 0, by simp [block_units_loop]⟩
    | cons c cs => simp at h
  | succ fuel ih =>
    intro ps cp h
    cases cp with
    | nil => exact ⟨[], 0, by simp [block_units_loop]⟩
    | cons c cs =>
      have hcs : cs.length ≤ fuel := by simpa using h
      simp only [block_units_loop]
      by_cases hb : is_basic c = true
      · obtain ⟨us, k, he, h1, h2, h3⟩ := ih ps cs hcs
        refine ⟨decoded_unit.mk (c : Int) 1 false :: us, k, ?_, ?_, ?_, h3⟩
        · simp [hb, he]
        · intro u hu
          rcases List.mem_cons.1 hu with rfl | hu
          · simp
          · exact h1 u hu
        · simp only [List.map_cons, List.sum_cons, List.length_cons]; omega
      · simp only [hb, if_false, Bool.false_eq_true]
        by_cases h0 : (L.mbrtowc ps (c :: cs)).1 = 0
        · obtain ⟨us, k, he, h1, h2, h3⟩ := ih (L.mbrtowc ps (c :: cs)).2.2 cs hcs
          refine ⟨decoded_unit.mk (L.mbrtowc ps (c :: cs)).2.1 1 false :: us, k, ?_, ?_, ?_, h3⟩
          · simp [h0, he]
          · intro u hu
            rcases List.mem_cons.1 hu with rfl | hu
            · simp
            · exact h1 u hu
          · simp only [List.map_cons, List.sum_cons, List.length_cons]; omega
        · simp only [h0, if_false]
          by_cases h1n : (L.mbrtowc ps (c :: cs)).1 = size_t_neg1
          · obtain ⟨us, k, he, h1, h2, h3⟩ := ih (L.mbrtowc ps (c :: cs)).2.2 cs hcs
            refine ⟨decoded_unit.mk (L.mbrtowc ps (c :: cs)).2.1 1 true :: us, k, ?_, ?_, ?_, h3⟩
            · simp [h1n, he]
            · intro u hu
              rcases List.mem_cons.1 hu with rfl | hu
              · simp
              · exact h1 u hu
            · simp only [List.map_cons, List.sum_cons, List.length_cons]; omega
          · simp only [h1n, if_false]
            by_cases h2n : (L.mbrtowc ps (c :: cs)).1 = size_t_neg2
            · simp only [h2n, if_true]
              cases eof with
              | false => exact ⟨[], (c :: cs).length, by simp⟩
              | true =>
                refine ⟨[decoded_unit.mk (L.mbrtowc ps (c :: cs)).2.1 (c :: cs).length true],
                  0, ?_, ?_, ?_, fun _ => rfl⟩
                · simp [block_units_loop]
                · intro u hu
                  rcases List.mem_singleton.1 hu with rfl
                  simp
                · simp
            · simp only [h2n, if_false]
              have hle : (L.mbrtowc ps (c :: cs)).1 ≤ (c :: cs).length := by
                rcases hL ps (c :: cs) with h | h | h
                · exact absurd h h1n
                · exact absurd h h2n
                · exact h
              have hdrop : ((c :: cs).drop (L.mbrtowc ps (c :: cs)).1).length ≤ fuel := by
                rw [List.length_drop]
                simp only [List.length_cons] at hle ⊢
                omega
              obtain ⟨us, k, he, h1, h2, h3⟩ :=
                ih (L.mbrtowc ps (c :: cs)).2.2 _ hdrop
              refine ⟨decoded_unit.mk (L.mbrtowc ps (c :: cs)).2.1
                (L.mbrtowc ps (c :: cs)).1 false :: us, k, ?_, ?_, ?_, h3⟩
              · have hle2 : (L.mbrtowc ps (c :: cs)).1 ≤ cs.length + 1 := by simpa using hle
                simp [hle2, he]
              · intro u hu
                rcases List.mem_cons.1 hu with rfl | hu
                · simp only; omega
                · exact h1 u hu
              · rw [List.length_drop] at h2
                simp only [List.map_cons, List.sum_cons]
                omega

theorem process_wchar_byte_counter (L : Locale) (g : Globals) (wc : WChar) (n : Nat)
    (e : Bool) :
    (process_wchar L g wc n e).byte_counter
      = if g.byte_counter.active = true then byte_counter_t.process_wchar g.byte_counter wc n e
        else g.byte_counter := by
  unfold process_wchar
  simp only
  split_ifs <;> rfl

theorem process_wchar_char_counter (L : Locale) (g : Globals) (wc : WChar) (n : Nat)
    (e : Bool) :
    (process_wchar L g wc n e).char_counter
      = if g.char_counter.active = true then
          char_counter_t.process_wchar L g.char_counter wc n e
        else g.char_counter := by
  unfold process_wchar
  simp only
  split_ifs <;> rfl

theorem process_wchar_longest_line_counter (L : Locale) (g : Globals) (wc : WChar) (n : Nat)
    (e : Bool) :
    (process_wchar L g wc n e).longest_line_counter
      = if g.longest_line_counter.active = true then
          g.longest_line_counter.process_wchar L wc n e
        else g.longest_line_counter := by
  unfold process_wchar
  simp only
  split_ifs <;> rfl

theorem process_wchar_word_counter (L : Locale) (g : Globals) (wc : WChar) (n : Nat)
    (e : Bool) :
    (process_wchar L g wc n e).word_counter
      = if g.word_counter.active = true then g.word_counter.process_wchar L wc n e
        else g.word_counter := by
  unfold process_wchar
  simp only
  split_ifs <;> rfl

theorem feed_byte_counter (L : Locale) (us : List decoded_unit) :
    ∀ g : Globals, g.byte_counter.active = true →
      (feed L g us).byte_counter.active = true
        ∧ (feed L g us).byte_counter.count
            = g.byte_counter.count + ((us.map decoded_unit.num_bytes).sum : Nat) := by
  induction us with
  | nil => intro g h; simp [feed, h]
  | cons u us ih =>
    intro g h
    have hstep : feed L g (u :: us) = feed L (process_wchar L g u.wc u.num_bytes u.error) us := rfl
    have ha : (process_wchar L g u.wc u.num_bytes u.error).byte_counter.active = true := by
      rw [process_wchar_byte_counter]; simp [h, byte_counter_t.process_wchar]
    have hc : (process_wchar L g u.wc u.num_bytes u.error).byte_counter.count
        = g.byte_counter.count + (u.num_bytes : Int) := by
      rw [process_wchar_byte_counter]; simp [h, byte_counter_t.process_wchar]
    obtain ⟨h1, h2⟩ := ih _ ha
    rw [hstep]
    refine ⟨h1, ?_⟩
    rw [h2, hc]
    simp only [List.map_cons, List.sum_cons]
    push_cast
    ring

theorem flatten_eq_nil_of_nonempty (is : List (List Byte)) (h : ∀ c ∈ is, c ≠ []) :
    is.flatten = [] ↔ is = [] := by
  cases is with
  | nil => simp
  | cons c cs =>
    have hc : c ≠ [] := h c (List.mem_cons_self _ _)
    simp [hc]

theorem block_units_loop_residual_short (L : Locale) (hsh : mbrtowc_incomplete_short L)
    (eof : Bool) :
    ∀ (fuel : Nat) (ps : L.MbState) (cp : List Byte) (us : List decoded_unit) (k : Nat),
      block_units_loop L eof fuel ps cp = some (us, k) → k < sizeof_wchar_t := by
  intro fuel
  induction fuel with
  | zero =>
    intro ps cp us k h
    cases cp with
    | nil =>
      simp only [block_units_loop, Option.some.injEq, Prod.mk.injEq] at h
      obtain ⟨_, rfl⟩ := h
      decide
    | cons c cs => simp [block_units_loop] at h
  | succ fuel ih =>
    intro ps cp us k h
    cases cp with
    | nil =>
      simp only [block_units_loop, Option.some.injEq, Prod.mk.injEq] at h
      obtain ⟨_, rfl⟩ := h
      decide
    | cons c cs =>
      have hz1 : ¬ size_t_neg1 = 0 := by decide
      have hz2 : ¬ size_t_neg2 = 0 := by decide
      have hz3 : ¬ size_t_neg2 = size_t_neg1 := by decide
      simp only [block_units_loop] at h
      by_cases hb : is_basic c = true
      · simp only [hb, if_true, Option.map_eq_some', Prod.mk.injEq] at h
        obtain ⟨q, hq, _, rfl⟩ := h
        exact ih _ _ _ _ hq
      · simp only [hb, if_false, Bool.false_eq_true] at h
        by_cases h0 : (L.mbrtowc ps (c :: cs)).1 = 0
        · simp only [h0, if_true, Option.map_eq_some', Prod.mk.injEq] at h
          obtain ⟨q, hq, _, rfl⟩ := h
          exact ih _ _ _ _ hq
        · by_cases hn1 : (L.mbrtowc ps (c :: cs)).1 = size_t_neg1
          · simp only [hn1, hz1, if_true, if_false, Option.map_eq_some', Prod.mk.injEq] at h
            obtain ⟨q, hq, _, rfl⟩ := h
            exact ih _ _ _ _ hq
          · by_cases hn2 : (L.mbrtowc ps (c :: cs)).1 = size_t_neg2
            · have hlen := hsh ps (c :: cs) hn2
              simp only [hn2, hz2, hz3, if_true, if_false] at h
              cases eof with
              | false =>
                simp only [if_true, Option.some.injEq, Prod.mk.injEq] at h
                obtain ⟨_, rfl⟩ := h
                exact hlen
              | true =>
                simp only [Bool.true_eq_false, if_false, block_units_loop, Option.map_some',
                  Option.some.injEq, Prod.mk.injEq] at h
                obtain ⟨_, rfl⟩ := h
                decide
            · simp only [h0, hn1, hn2, if_false] at h
              by_cases hle : (L.mbrtowc ps (c :: cs)).1 ≤ (c :: cs).length
              · simp only [hle, if_true, Option.map_eq_some', Prod.mk.injEq] at h
                obtain ⟨q, hq, _, rfl⟩ := h
                exact ih _ _ _ _ hq
              · rw [if_neg hle] at h
                exact Option.noConfusion h

theorem process_stream_byte_count (L : Locale) (hL : mbrtowc_contract L)
    (hsh : mbrtowc_incomplete_short L) :
    ∀ (is : List (List Byte)) (buf : List Byte) (g : Globals),
      (∀ c ∈ is, c ≠ []) → (is = [] → buf = []) → buf.length ≤ sizeof_wchar_t →
      g.byte_counter.active = true →
      ∃ g1, process_stream (process_block L) is buf g = some g1
        ∧ g1.byte_counter.active = true
        ∧ g1.byte_counter.count
            = g.byte_counter.count + ((buf.length + is.flatten.length : Nat) : Int) := by
  intro is
  induction is with
  | nil =>
    intro buf g _ hb _ ha
    exact ⟨g, by simp [process_stream], ha, by simp [hb rfl]⟩
  | cons chunk rest ih =>
    intro buf g hne _ hcap ha
    have hchunk : chunk ≠ [] := hne chunk (List.mem_cons_self _ _)
    have hrest : ∀ c ∈ rest, c ≠ [] := fun c hc => hne c (List.mem_cons_of_mem _ hc)
    obtain ⟨us, k, he, _, hsum, hk⟩ :=
      block_units_loop_total L hL (decide (rest.flatten = [])) (buf ++ chunk).length L.ps0
        (buf ++ chunk) le_rfl
    have hpb : process_block L (buf ++ chunk) (decide (rest.flatten = [])) g
        = some (k, feed L g us) := by
      rw [process_block_eq_feed, block_units, he]; rfl
    obtain ⟨hfa, hfc⟩ := feed_byte_counter L us g ha
    have hlen : 0 < chunk.length := List.length_pos.2 hchunk
    have hbuf : rest = [] → List.drop ((buf ++ chunk).length - k) (buf ++ chunk) = [] := by
      intro hr
      have : k = 0 := hk (by simp [hr])
      simp [this]
    have hshort := block_units_loop_residual_short L hsh _ _ _ _ us k he
    have hd : (List.drop ((buf ++ chunk).length - k) (buf ++ chunk)).length = k := by
      rw [List.length_drop]; omega
    obtain ⟨g1, hg1, hga, hgc⟩ := ih (List.drop ((buf ++ chunk).length - k) (buf ++ chunk))
      (feed L g us) hrest hbuf (by rw [hd]; omega) hfa
    refine ⟨g1, ?_, hga, ?_⟩
    · simp only [process_stream]
      have h1 : ¬ (chunk :: rest).flatten = [] := by simp [hchunk]
      have h2 : ¬ (buf ++ chunk).length < 1 := by
        simp only [List.length_append]; omega
      have h3 : ¬ sizeof_wchar_t < buf.length := by omega
      simp only [h1, h2, h3, if_false, hpb]
      exact hg1
    · have hn : (List.map decoded_unit.num_bytes us).sum + k + rest.flatten.length
          = buf.length + (chunk :: rest).flatten.length := by
        simp only [List.flatten_cons, List.length_append] at hsum ⊢
        omega
      rw [hgc, hfc, hd, ← hn]
      push_cast
      ring

/-! ## The raw line scan -/

theorem memchr_none (c : Byte) : ∀ s : List Byte, memchr s c = none → s.count c = 0 := by
  intro s
  induction s with
  | nil => intro _; rfl
  | cons b bs ih =>
    intro h
    simp only [memchr] at h
    split_ifs at h with hb
    rw [List.count_cons, ih h]
    simp [hb]

theorem memchr_some (c : Byte) :
    ∀ s found : List Byte, memchr s c = some found →
      ∃ t, found = c :: t ∧ s.count c = t.count c + 1 ∧ t.length < s.length := by
  intro s
  induction s with
  | nil => intro found h; simp [memchr] at h
  | cons b bs ih =>
    intro found h
    simp only [memchr] at h
    split_ifs at h with hb
    · refine ⟨bs, ?_, ?_, ?_⟩
      · rw [← Option.some.inj h, hb]
      · rw [List.count_cons]; simp [hb]
      · simp
    · obtain ⟨t, h1, h2, h3⟩ := ih found h
      refine ⟨t, h1, ?_, ?_⟩
      · rw [List.count_cons, h2]; simp [hb]
      · simp only [List.length_cons]; omega

theorem process_block_lines_only_loop_count :
    ∀ (fuel : Nat) (cur : List Byte) (lc : line_counter_t), cur.length < fuel →
      process_block_lines_only_loop fuel cur lc
        = { lc with count := lc.count + (cur.count 10 : Nat) } := by
  intro fuel
  induction fuel with
  | zero => intro cur lc h; omega
  | succ fuel ih =>
    intro cur lc h
    simp only [process_block_lines_only_loop]
    cases hm : memchr cur 10 with
    | none => simp [memchr_none 10 cur hm]
    | some found =>
      obtain ⟨t, h1, h2, h3⟩ := memchr_some 10 cur found hm
      simp only [h1, List.drop_succ_cons, List.drop_zero]
      rw [ih t _ (by omega), h2]
      simp only [Nat.cast_add, Nat.cast_one]
      congr 1
      ring

theorem process_block_lines_only_eq (cp : List Byte) (eof : Bool) (g : Globals) :
    process_block_lines_only cp eof g
      = some (0, { g with line_counter :=
          { g.line_counter with count := g.line_counter.count + (cp.count 10 : Nat) } }) := by
  simp only [process_block_lines_only]
  rw [process_block_lines_only_loop_count (cp.length + 1) cp g.line_counter (by omega)]

theorem process_stream_lines_only :
    ∀ (is : List (List Byte)) (g : Globals), (∀ c ∈ is, c ≠ []) →
      process_stream process_block_lines_only is [] g
        = some { g with line_counter :=
            { g.line_counter with
              count := g.line_counter.count + (is.flatten.count 10 : Nat) } } := by
  intro is
  induction is with
  | nil => intro g _; simp [process_stream]
  | cons chunk rest ih =>
    intro g hne
    have hchunk : chunk ≠ [] := hne chunk (List.mem_cons_self _ _)
    have hrest : ∀ c ∈ rest, c ≠ [] := fun c hc => hne c (List.mem_cons_of_mem _ hc)
    have h1 : ¬ (chunk :: rest).flatten = [] := by simp [hchunk]
    have h2 : ¬ ([] ++ chunk).length < 1 := by
      have := List.length_pos.2 hchunk
      simp only [List.nil_append]; omega
    have h3 : ¬ sizeof_wchar_t < ([] : List Byte).length := by decide
    simp only [process_stream, h1, h2, h3, if_false, process_block_lines_only_eq]
    simp only [Nat.sub_zero, List.drop_length]
    rw [ih _ hrest]
    simp only [List.nil_append, List.flatten_cons, List.count_append, Nat.cast_add]
    congr 3
    ring

/-! ## The word counter -/

theorem word_process_wchar_sep (L : Locale) (c : word_counter_t) (wc : WChar) (n : Nat)
    (h : is_word_sep L wc = true) :
    c.process_wchar L wc n false = { c with in_word := false } := by
  cases c with
  | mk base in_word =>
    cases in_word <;> simp [word_counter_t.process_wchar, h]

theorem word_feed_append (L : Locale) (c : word_counter_t) (us vs : List decoded_unit) :
    word_feed L c (us ++ vs) = word_feed L (word_feed L c us) vs := by
  simp [word_feed, List.foldl_append]

theorem word_feed_sep_run (L : Locale) :
    ∀ (run : List decoded_unit) (c : word_counter_t), run ≠ [] →
      (∀ u ∈ run, u.error = false ∧ is_word_sep L u.wc = true) →
      word_feed L c run = { c with in_word := false } := by
  intro run
  induction run with
  | nil => intro c h; exact absurd rfl h
  | cons u us ih =>
    intro c _ hall
    obtain ⟨he, hs⟩ := hall u (List.mem_cons_self _ _)
    have hstep : word_feed L c (u :: us)
        = word_feed L (c.process_wchar L u.wc u.num_bytes u.error) us := rfl
    rw [hstep, he, word_process_wchar_sep L c u.wc u.num_bytes hs]
    cases us with
    | nil => rfl
    | cons v vs =>
      rw [ih _ (by simp) (fun w hw => hall w (List.mem_cons_of_mem _ hw))]

/-! ## The aggregator -/

theorem counters_from_arguments_empty (g : Globals) :
    counters_from_arguments ∅ g
      = ([counter_id.line_counter, counter_id.word_counter, counter_id.byte_counter],
          { g with line_counter := g.line_counter.reset,
                   word_counter := g.word_counter.reset,
                   byte_counter := g.byte_counter.reset }) := by
  simp [counters_from_arguments]

theorem counters_from_arguments_fst (flags : Finset String) (g : Globals)
    (h : flags ≠ ∅) :
    (counters_from_arguments flags g).1
      = [counter_id.line_counter, counter_id.word_counter, counter_id.char_counter,
          counter_id.byte_counter, counter_id.longest_line_counter].filter (requested flags) := by
  have hc : ¬ flags.card = 0 := by rwa [Finset.card_eq_zero]
  simp only [counters_from_arguments, hc, if_false, requested, List.filter]
  by_cases h1 : "-l" ∈ flags ∨ "--lines" ∈ flags <;>
  by_cases h2 : "-w" ∈ flags ∨ "--words" ∈ flags <;>
  by_cases h3 : "-m" ∈ flags ∨ "--chars" ∈ flags <;>
  by_cases h4 : "-c" ∈ flags ∨ "--bytes" ∈ flags <;>
  by_cases h5 : "-L" ∈ flags ∨ "--max-line-length" ∈ flags <;>
  simp [h1, h2, h3, h4, h5]

theorem counters_from_arguments_reset (flags : Finset String) (g : Globals) :
    ∀ c ∈ (counters_from_arguments flags g).1,
      ((counters_from_arguments flags g).2.deref c).count = 0
        ∧ ((counters_from_arguments flags g).2.deref c).active = true := by
  by_cases hc : flags.card = 0
  · simp [counters_from_arguments, hc, Globals.deref, counter_t.reset,
      word_counter_t.reset]
  · simp only [counters_from_arguments, hc, if_false]
    by_cases h1 : "-l" ∈ flags ∨ "--lines" ∈ flags <;>
    by_cases h2 : "-w" ∈ flags ∨ "--words" ∈ flags <;>
    by_cases h3 : "-m" ∈ flags ∨ "--chars" ∈ flags <;>
    by_cases h4 : "-c" ∈ flags ∨ "--bytes" ∈ flags <;>
    by_cases h5 : "-L" ∈ flags ∨ "--max-line-length" ∈ flags <;>
    simp [h1, h2, h3, h4, h5, Globals.deref, counter_t.reset, word_counter_t.reset,
      longest_line_counter_t.reset]

/-! ## The longest-line counter -/

theorem longest_process_wchar_tab (L : Locale) (c : longest_line_counter_t) (n : Nat)
    (h : 0 ≤ c.current_length) :
    c.process_wchar L 9 n false
      = { c with current_length := 8 * (c.current_length / 8 + 1) } := by
  have hm : Int.tmod c.current_length 8 = c.current_length % 8 :=
    Int.tmod_eq_emod h (by decide)
  simp only [longest_line_counter_t.process_wchar, hm]
  simp only [Bool.false_eq_true, if_false, if_true]
  congr 1
  omega

theorem longest_feed_tab_letter (L : Locale) (x : WChar) (n m : Nat)
    (hp : L.iswprint x = true) (hw : L.wcwidth x = 1) (h9 : x ≠ 9) (h10 : x ≠ 10) :
    (longest_feed L {} [decoded_unit.mk 9 n false, decoded_unit.mk x m false]).count = 9 := by
  simp only [longest_feed, List.foldl]
  rw [longest_process_wchar_tab L _ n (by decide)]
  simp only [longest_line_counter_t.process_wchar, hp, hw, h9, h10]
  by_cases h13 : x = 13 <;> by_cases h12 : x = 12 <;> simp [h13, h12, h9, h10]

/-! ## Splitting the input into blocks -/

theorem shapes_cons_map (o : Option (List decoded_unit × Nat)) (u : decoded_unit) :
    (o.map (fun q => (u :: q.1, q.2))).map shapes
      = (o.map shapes).map (fun q => (unit_shape u :: q.1, q.2)) := by
  cases o <;> rfl

theorem block_units_loop_stateless (L : Locale) (hs : mbrtowc_stateless L) (eof : Bool) :
    ∀ (fuel fuel1 : Nat) (ps ps1 : L.MbState) (cp : List Byte),
      cp.length ≤ fuel → cp.length ≤ fuel1 →
      (block_units_loop L eof fuel ps cp).map shapes
        = (block_units_loop L eof fuel1 ps1 cp).map shapes := by
  intro fuel
  induction fuel with
  | zero =>
    intro fuel1 ps ps1 cp h h1
    cases cp with
    | nil => simp [block_units_loop]
    | cons c cs => simp at h
  | succ fuel ih =>
    intro fuel1 ps ps1 cp h h1
    cases cp with
    | nil => simp [block_units_loop]
    | cons c cs =>
      cases fuel1 with
      | zero => simp at h1
      | succ fuel1 =>
        have hcs : cs.length ≤ fuel := by simpa using h
        have hcs1 : cs.length ≤ fuel1 := by simpa using h1
        have hr : (L.mbrtowc ps1 (c :: cs)).1 = (L.mbrtowc ps (c :: cs)).1 := by
          rw [hs ps1, hs ps]
        simp only [block_units_loop, hr]
        split_ifs with hb h0 hn1 hn2 he hle
        · rw [shapes_cons_map, shapes_cons_map, ih fuel1 ps ps1 cs hcs hcs1]
        · rw [shapes_cons_map, shapes_cons_map, ih fuel1 _ (L.mbrtowc ps1 (c :: cs)).2.2 cs hcs hcs1]
          rfl
        · rw [shapes_cons_map, shapes_cons_map, ih fuel1 _ (L.mbrtowc ps1 (c :: cs)).2.2 cs hcs hcs1]
          rfl
        · rfl
        · simp [block_units_loop, shapes, unit_shape]
        · have hd : ((c :: cs).drop (L.mbrtowc ps (c :: cs)).1).length ≤ fuel := by
            rw [List.length_drop]; simp only [List.length_cons] at hle ⊢; omega
          have hd1 : ((c :: cs).drop (L.mbrtowc ps (c :: cs)).1).length ≤ fuel1 := by
            rw [List.length_drop]; simp only [List.length_cons] at hle ⊢; omega
          rw [shapes_cons_map, shapes_cons_map,
            ih fuel1 _ (L.mbrtowc ps1 (c :: cs)).2.2 _ hd hd1]
          rfl
        · rfl

theorem block_units_loop_residual_le (L : Locale) (eof : Bool) :
    ∀ (fuel : Nat) (ps : L.MbState) (cp : List Byte) (us : List decoded_unit) (k : Nat),
      block_units_loop L eof fuel ps cp = some (us, k) → k ≤ cp.length := by
  intro fuel
  induction fuel with
  | zero =>
    intro ps cp us k h
    cases cp with
    | nil => simp [block_units_loop] at h; omega
    | cons c cs => simp [block_units_loop] at h
  | succ fuel ih =>
    intro ps cp us k h
    cases cp with
    | nil => simp [block_units_loop] at h; omega
    | cons c cs =>
      simp only [block_units_loop] at h
      split_ifs at h with hb h0 hn1 hn2 he hle
      all_goals first
        | (simp only [Option.map_eq_some', Prod.mk.injEq] at h
           obtain ⟨q, hq, _, rfl⟩ := h
           have := ih _ _ _ _ hq
           first
             | (simp only [List.length_cons]; omega)
             | (rw [List.length_drop] at this; omega))
        | (simp only [Option.some.injEq, Prod.mk.injEq] at h
           obtain ⟨_, rfl⟩ := h
           exact le_rfl)
        | (simp [block_units_loop] at h
           obtain ⟨_, rfl⟩ := h
           exact Nat.zero_le _)

theorem block_units_loop_split (L : Locale) (hs : mbrtowc_stateless L)
    (hst : mbrtowc_stable L) (eof : Bool) :
    ∀ (fuel fuel1 fuel2 : Nat) (ps ps1 ps2 : L.MbState) (s t : List Byte)
      (us : List decoded_unit) (k : Nat),
      (s ++ t).length ≤ fuel1 → (s ++ t).length ≤ fuel2 →
      block_units_loop L false fuel ps s = some (us, k) →
      (block_units_loop L eof fuel1 ps1 (s ++ t)).map shapes
        = ((block_units_loop L eof fuel2 ps2 (s.drop (s.length - k) ++ t)).map shapes).map
            (fun q => (us.map unit_shape ++ q.1, q.2)) := by
  intro fuel
  induction fuel with
  | zero =>
    intro fuel1 fuel2 ps ps1 ps2 s t us k h1 h2 h
    cases s with
    | nil =>
      simp only [block_units_loop, Option.some.injEq, Prod.mk.injEq] at h
      obtain ⟨rfl, rfl⟩ := h
      simp only [List.length_nil, Nat.sub_zero, List.drop_nil, List.nil_append, List.map_nil]
      rw [block_units_loop_stateless L hs eof fuel1 fuel2 ps1 ps2 t (by simpa using h1)
        (by simpa using h2)]
      cases (block_units_loop L eof fuel2 ps2 t) <;> rfl
    | cons c cs => simp [block_units_loop] at h
  | succ fuel ih =>
    intro fuel1 fuel2 ps ps1 ps2 s t us k h1 h2 h
    cases s with
    | nil =>
      simp only [block_units_loop, Option.some.injEq, Prod.mk.injEq] at h
      obtain ⟨rfl, rfl⟩ := h
      simp only [List.length_nil, Nat.sub_zero, List.drop_nil, List.nil_append, List.map_nil]
      rw [block_units_loop_stateless L hs eof fuel1 fuel2 ps1 ps2 t (by simpa using h1)
        (by simpa using h2)]
      cases (block_units_loop L eof fuel2 ps2 t) <;> rfl
    | cons c cs =>
      cases fuel1 with
      | zero => simp at h1
      | succ fuel1 =>
        have hlen1 : (cs ++ t).length ≤ fuel1 := by simpa using h1
        have hlen2 : (cs ++ t).length ≤ fuel2 := by
          simp only [List.length_append, List.length_cons] at h2 ⊢; omega
        have hz1 : ¬ size_t_neg1 = 0 := by decide
        have hz2 : ¬ size_t_neg2 = 0 := by decide
        have hz3 : ¬ size_t_neg2 = size_t_neg1 := by decide
        simp only [block_units_loop] at h
        by_cases hb : is_basic c = true
        · simp only [List.cons_append, block_units_loop, List.append_eq]
          simp only [hb, if_true, Option.map_eq_some', Prod.mk.injEq] at h ⊢
          obtain ⟨q, hq, rfl, rfl⟩ := h
          have hk := block_units_loop_residual_le L false fuel ps cs q.1 q.2 hq
          rw [shapes_cons_map, ih fuel1 fuel2 ps ps1 ps2 cs t q.1 q.2 hlen1 hlen2 hq]
          have hd : List.drop ((c :: cs).length - q.2) (c :: cs) = List.drop (cs.length - q.2) cs := by
            rw [show (c :: cs).length - q.2 = (cs.length - q.2) + 1 by
              simp only [List.length_cons]; omega]
            rfl
          rw [hd]
          cases (block_units_loop L eof fuel2 ps2 (List.drop (cs.length - q.2) cs ++ t)) <;> rfl
        · have hr : (L.mbrtowc ps (c :: cs)).1 ≠ size_t_neg2 →
              (L.mbrtowc ps1 (c :: (cs ++ t))).1 = (L.mbrtowc ps (c :: cs)).1 := by
            intro hne
            rw [hs ps1, hs ps]
            rw [hs ps] at hne
            exact hst L.ps0 (c :: cs) t hne
          simp only [hb, if_false, Bool.false_eq_true] at h
          by_cases h0 : (L.mbrtowc ps (c :: cs)).1 = 0
          · have hr0 : (L.mbrtowc ps1 (c :: (cs ++ t))).1 = 0 := by
              rw [hr (by rw [h0]; decide), h0]
            simp only [h0, if_true, Option.map_eq_some', Prod.mk.injEq] at h
            simp only [List.cons_append, block_units_loop, List.append_eq, hb, hr0, if_true,
              if_false, Bool.false_eq_true]
            obtain ⟨q, hq, rfl, rfl⟩ := h
            have hk := block_units_loop_residual_le L false fuel _ cs q.1 q.2 hq
            rw [shapes_cons_map, ih fuel1 fuel2 _ _ ps2 cs t q.1 q.2 hlen1 hlen2 hq]
            have hd : List.drop ((c :: cs).length - q.2) (c :: cs)
                = List.drop (cs.length - q.2) cs := by
              rw [show (c :: cs).length - q.2 = (cs.length - q.2) + 1 by
                simp only [List.length_cons]; omega]
              rfl
            rw [hd]
            cases (block_units_loop L eof fuel2 ps2 (List.drop (cs.length - q.2) cs ++ t)) <;> rfl
          · by_cases hn1 : (L.mbrtowc ps (c :: cs)).1 = size_t_neg1
            · have hr1 : (L.mbrtowc ps1 (c :: (cs ++ t))).1 = size_t_neg1 := by
                rw [hr (by rw [hn1]; decide), hn1]
              simp only [hn1, hz1, if_true, if_false, Option.map_eq_some', Prod.mk.injEq] at h
              simp only [List.cons_append, block_units_loop, List.append_eq, hb, hr1, hz1,
                if_true, if_false, Bool.false_eq_true]
              obtain ⟨q, hq, rfl, rfl⟩ := h
              have hk := block_units_loop_residual_le L false fuel _ cs q.1 q.2 hq
              rw [shapes_cons_map, ih fuel1 fuel2 _ _ ps2 cs t q.1 q.2 hlen1 hlen2 hq]
              have hd : List.drop ((c :: cs).length - q.2) (c :: cs)
                  = List.drop (cs.length - q.2) cs := by
                rw [show (c :: cs).length - q.2 = (cs.length - q.2) + 1 by
                  simp only [List.length_cons]; omega]
                rfl
              rw [hd]
              cases (block_units_loop L eof fuel2 ps2 (List.drop (cs.length - q.2) cs ++ t))
                <;> rfl
            · by_cases hn2 : (L.mbrtowc ps (c :: cs)).1 = size_t_neg2
              · simp only [hn2, hz2, hz3, if_true, if_false, Option.some.injEq,
                  Prod.mk.injEq] at h
                obtain ⟨rfl, rfl⟩ := h
                simp only [Nat.sub_self, List.drop_zero, List.map_nil, List.nil_append]
                rw [block_units_loop_stateless L hs eof (fuel1 + 1) fuel2 ps1 ps2
                  (c :: cs ++ t) h1 h2]
                cases (block_units_loop L eof fuel2 ps2 (c :: cs ++ t)) <;> rfl
              · have hr2 : (L.mbrtowc ps1 (c :: (cs ++ t))).1 = (L.mbrtowc ps (c :: cs)).1 :=
                  hr hn2
                simp only [h0, hn1, hn2, if_false] at h
                by_cases hle : (L.mbrtowc ps (c :: cs)).1 ≤ (c :: cs).length
                · have hle1 : (L.mbrtowc ps (c :: cs)).1 ≤ (c :: (cs ++ t)).length := by
                    simp only [List.length_cons, List.length_append] at hle ⊢; omega
                  simp only [hle, if_true, Option.map_eq_some', Prod.mk.injEq] at h
                  simp only [List.cons_append, block_units_loop, List.append_eq, hb, hr2, h0,
                    hn1, hn2, hle1, if_true, if_false, Bool.false_eq_true]
                  obtain ⟨q, hq, rfl, rfl⟩ := h
                  have hk := block_units_loop_residual_le L false fuel _ _ q.1 q.2 hq
                  have hda : List.drop (L.mbrtowc ps (c :: cs)).1 (c :: (cs ++ t))
                      = List.drop (L.mbrtowc ps (c :: cs)).1 (c :: cs) ++ t := by
                    rw [← List.cons_append, List.drop_append_of_le_length hle]
                  have hl1 : (List.drop (L.mbrtowc ps (c :: cs)).1 (c :: cs) ++ t).length
                      ≤ fuel1 := by
                    simp only [List.length_append, List.length_drop, List.length_cons] at h1 ⊢
                    omega
                  have hl2 : (List.drop (L.mbrtowc ps (c :: cs)).1 (c :: cs) ++ t).length
                      ≤ fuel2 := by
                    simp only [List.length_append, List.length_drop, List.length_cons] at h2 ⊢
                    omega
                  rw [shapes_cons_map, hda, ih fuel1 fuel2 _ _ ps2 _ t q.1 q.2 hl1 hl2 hq]
                  have hd : List.drop ((List.drop (L.mbrtowc ps (c :: cs)).1 (c :: cs)).length
                        - q.2) (List.drop (L.mbrtowc ps (c :: cs)).1 (c :: cs))
                      = List.drop ((c :: cs).length - q.2) (c :: cs) := by
                    rw [List.drop_drop]
                    congr 1
                    rw [List.length_drop] at hk ⊢
                    omega
                  rw [hd]
                  cases (block_units_loop L eof fuel2 ps2
                    (List.drop ((c :: cs).length - q.2) (c :: cs) ++ t)) <;> rfl
                · rw [if_neg hle] at h
                  exact Option.noConfusion h

theorem feed_append (L : Locale) (g : Globals) (us vs : List decoded_unit) :
    feed L g (us ++ vs) = feed L (feed L g us) vs := by
  simp [feed, List.foldl_append]

theorem feed_char_counter_shape (L : Locale) :
    ∀ (us vs : List decoded_unit) (g g1 : Globals),
      g.char_counter = g1.char_counter → us.map unit_shape = vs.map unit_shape →
      (feed L g us).char_counter = (feed L g1 vs).char_counter := by
  intro us
  induction us with
  | nil =>
    intro vs g g1 hg h
    cases vs with
    | nil => exact hg
    | cons v vs => simp at h
  | cons u us ih =>
    intro vs g g1 hg h
    cases vs with
    | nil => simp at h
    | cons v vs =>
      simp only [List.map_cons, List.cons.injEq, unit_shape, Prod.mk.injEq] at h
      obtain ⟨⟨hn, he⟩, ht⟩ := h
      have hstep : ∀ (g : Globals) (u : decoded_unit) (us : List decoded_unit),
          feed L g (u :: us) = feed L (process_wchar L g u.wc u.num_bytes u.error) us :=
        fun _ _ _ => rfl
      rw [hstep, hstep]
      apply ih vs _ _ _ ht
      rw [process_wchar_char_counter, process_wchar_char_counter, hg, hn, he]
      simp only [char_counter_t.process_wchar]

theorem process_block_split (L : Locale) (hL : mbrtowc_contract L)
    (hs : mbrtowc_stateless L) (hst : mbrtowc_stable L) (b1 b2 : List Byte) (g : Globals) :
    ∃ k g1 g2 gw, process_block L b1 false g = some (k, g1)
      ∧ process_block L (b1.drop (b1.length - k) ++ b2) true g1 = some (0, g2)
      ∧ process_block L (b1 ++ b2) true g = some (0, gw)
      ∧ g2.char_counter = gw.char_counter := by
  obtain ⟨us1, k, he1, _, _, _⟩ :=
    block_units_loop_total L hL false b1.length L.ps0 b1 le_rfl
  obtain ⟨us2, k2, he2, _, _, hk2⟩ :=
    block_units_loop_total L hL true (b1.drop (b1.length - k) ++ b2).length L.ps0
      (b1.drop (b1.length - k) ++ b2) le_rfl
  obtain ⟨usw, kw, hew, _, _, hkw⟩ :=
    block_units_loop_total L hL true (b1 ++ b2).length L.ps0 (b1 ++ b2) le_rfl
  have hk2 : k2 = 0 := hk2 rfl
  have hkw : kw = 0 := hkw rfl
  subst hk2 hkw
  have hlen : (b1.drop (b1.length - k) ++ b2).length ≤ (b1 ++ b2).length := by
    simp only [List.length_append, List.length_drop]; omega
  have hsp := block_units_loop_split L hs hst true b1.length (b1 ++ b2).length
    (b1 ++ b2).length L.ps0 L.ps0 L.ps0 b1 b2 us1 k le_rfl le_rfl he1
  rw [block_units_loop_stateless L hs true (b1 ++ b2).length
    (b1.drop (b1.length - k) ++ b2).length L.ps0 L.ps0 (b1.drop (b1.length - k) ++ b2)
    hlen le_rfl, hew, he2] at hsp
  simp only [Option.map_some', shapes, Option.some.injEq, Prod.mk.injEq] at hsp
  refine ⟨k, feed L g us1, feed L (feed L g us1) us2, feed L g usw, ?_, ?_, ?_, ?_⟩
  · rw [process_block_eq_feed, block_units, he1]; rfl
  · rw [process_block_eq_feed, block_units, he2]; rfl
  · rw [process_block_eq_feed, block_units, hew]; rfl
  · rw [← feed_append]
    apply feed_char_counter_shape L _ _ g g rfl
    rw [List.map_append, hsp.1]

/-! ## The sample locales obey the contract -/

theorem utf8_seq2_contract (b0 : Byte) (s : List Byte) :
    (utf8_seq2 b0 s).1 = size_t_neg1 ∨ (utf8_seq2 b0 s).1 = size_t_neg2
      ∨ (utf8_seq2 b0 s).1 ≤ s.length + 1 := by
  rcases s with _ | ⟨b1, s⟩
  · exact Or.inr (Or.inl rfl)
  · simp only [utf8_seq2]
    split_ifs
    · exact Or.inr (Or.inr (by simp only [List.length_cons]; omega))
    · exact Or.inl rfl

theorem utf8_seq3_contract (b0 : Byte) (s : List Byte) :
    (utf8_seq3 b0 s).1 = size_t_neg1 ∨ (utf8_seq3 b0 s).1 = size_t_neg2
      ∨ (utf8_seq3 b0 s).1 ≤ s.length + 1 := by
  rcases s with _ | ⟨b1, _ | ⟨b2, s⟩⟩
  · exact Or.inr (Or.inl rfl)
  · simp only [utf8_seq3]
    split_ifs
    · exact Or.inr (Or.inl rfl)
    · exact Or.inl rfl
  · simp only [utf8_seq3]
    split_ifs
    · exact Or.inr (Or.inr (by simp only [List.length_cons]; omega))
    · exact Or.inl rfl
    · exact Or.inl rfl

theorem utf8_seq4_contract (b0 : Byte) (s : List Byte) :
    (utf8_seq4 b0 s).1 = size_t_neg1 ∨ (utf8_seq4 b0 s).1 = size_t_neg2
      ∨ (utf8_seq4 b0 s).1 ≤ s.length + 1 := by
  rcases s with _ | ⟨b1, _ | ⟨b2, _ | ⟨b3, s⟩⟩⟩
  · exact Or.inr (Or.inl rfl)
  · simp only [utf8_seq4]
    split_ifs
    · exact Or.inr (Or.inl rfl)
    · exact Or.inl rfl
  · simp only [utf8_seq4]
    split_ifs
    · exact Or.inr (Or.inl rfl)
    · exact Or.inl rfl
    · exact Or.inl rfl
  · simp only [utf8_seq4]
    split_ifs
    · exact Or.inr (Or.inr (by simp only [List.length_cons]; omega))
    · exact Or.inl rfl
    · exact Or.inl rfl
    · exact Or.inl rfl

theorem utf8_decode_contract (s : List Byte) :
    (utf8_decode s).1 = size_t_neg1 ∨ (utf8_decode s).1 = size_t_neg2
      ∨ (utf8_decode s).1 ≤ s.length := by
  rcases s with _ | ⟨b0, s⟩
  · exact Or.inr (Or.inl rfl)
  · simp only [utf8_decode]
    split_ifs
    · exact Or.inr (Or.inr (Nat.zero_le _))
    · exact Or.inr (Or.inr (by simp only [List.length_cons]; omega))
    · exact Or.inl rfl
    · exact utf8_seq2_contract b0 s
    · exact utf8_seq3_contract b0 s
    · exact utf8_seq4_contract b0 s
    · exact Or.inl rfl

theorem utf8_seq2_stable (b0 : Byte) (s t : List Byte)
    (h : (utf8_seq2 b0 s).1 ≠ size_t_neg2) :
    (utf8_seq2 b0 (s ++ t)).1 = (utf8_seq2 b0 s).1 := by
  rcases s with _ | ⟨b1, s⟩
  · exact absurd rfl h
  · rfl

theorem utf8_seq3_stable (b0 : Byte) (s t : List Byte)
    (h : (utf8_seq3 b0 s).1 ≠ size_t_neg2) :
    (utf8_seq3 b0 (s ++ t)).1 = (utf8_seq3 b0 s).1 := by
  rcases s with _ | ⟨b1, _ | ⟨b2, s⟩⟩
  · exact absurd rfl h
  · simp only [utf8_seq3] at h
    split_ifs at h with h1
    · exact absurd rfl h
    · rcases t with _ | ⟨b2, t⟩
      · rfl
      · simp only [List.cons_append, List.nil_append, utf8_seq3, h1]
        rfl
  · rfl

theorem utf8_seq4_stable (b0 : Byte) (s t : List Byte)
    (h : (utf8_seq4 b0 s).1 ≠ size_t_neg2) :
    (utf8_seq4 b0 (s ++ t)).1 = (utf8_seq4 b0 s).1 := by
  rcases s with _ | ⟨b1, _ | ⟨b2, _ | ⟨b3, s⟩⟩⟩
  · exact absurd rfl h
  · simp only [utf8_seq4] at h
    split_ifs at h with h1
    · exact absurd rfl h
    · rcases t with _ | ⟨b2, _ | ⟨b3, t⟩⟩
      · rfl
      · simp only [List.cons_append, List.nil_append, utf8_seq4, h1]
        rfl
      · simp only [List.cons_append, List.nil_append, utf8_seq4, h1]
        rfl
  · simp only [utf8_seq4] at h
    split_ifs at h with h1 h2
    · exact absurd rfl h
    · rcases t with _ | ⟨b3, t⟩
      · rfl
      · simp only [List.cons_append, List.nil_append, utf8_seq4, h1, h2]
        rfl
    · rcases t with _ | ⟨b3, t⟩
      · rfl
      · simp only [List.cons_append, List.nil_append, utf8_seq4, h1]
        rfl
  · rfl

theorem utf8_decode_stable (s t : List Byte) (h : (utf8_decode s).1 ≠ size_t_neg2) :
    (utf8_decode (s ++ t)).1 = (utf8_decode s).1 := by
  rcases s with _ | ⟨b0, s⟩
  · exact absurd rfl h
  · simp only [List.cons_append, utf8_decode] at h ⊢
    split_ifs at h ⊢
    · rfl
    · rfl
    · rfl
    · exact utf8_seq2_stable b0 s t h
    · exact utf8_seq3_stable b0 s t h
    · exact utf8_seq4_stable b0 s t h
    · rfl

theorem utf8_locale_contract : mbrtowc_contract utf8_locale :=
  fun _ s => utf8_decode_contract s

theorem utf8_locale_stateless : mbrtowc_stateless utf8_locale :=
  fun _ _ => rfl

theorem utf8_locale_stable : mbrtowc_stable utf8_locale :=
  fun _ s t h => utf8_decode_stable s t h

theorem c_locale_contract : mbrtowc_contract c_locale := by
  intro ps s
  cases s with
  | nil => right; left; rfl
  | cons b bs =>
    simp only [c_locale]
    split_ifs
    · exact Or.inr (Or.inr (Nat.zero_le _))
    · exact Or.inr (Or.inr (by simp only [List.length_cons]; omega))
    · exact Or.inl rfl

theorem c_locale_incomplete_short : mbrtowc_incomplete_short c_locale := by
  intro ps s h
  cases s with
  | nil => decide
  | cons b bs =>
    have e0 : ¬ (0 : Nat) = size_t_neg2 := by decide
    have e1 : ¬ size_t_neg1 = size_t_neg2 := by decide
    have e2 : ¬ (1 : Nat) = size_t_neg2 := by decide
    simp only [c_locale] at h
    split_ifs at h
    · exact absurd h e0
    · exact absurd h e2
    · exact absurd h e1

theorem utf8_seq2_incomplete_short (b0 : Nat) (s : List Nat)
    (h : (utf8_seq2 b0 s).1 = size_t_neg2) : s.length < 3 := by
  have e1 : ¬ size_t_neg1 = size_t_neg2 := by decide
  have e2 : ¬ (2 : Nat) = size_t_neg2 := by decide
  rcases s with _ | ⟨b1, s⟩
  · simp
  · simp only [utf8_seq2] at h
    split_ifs at h
    · exact absurd h e2
    · exact absurd h e1

theorem utf8_seq3_incomplete_short (b0 : Nat) (s : List Nat)
    (h : (utf8_seq3 b0 s).1 = size_t_neg2) : s.length < 3 := by
  have e1 : ¬ size_t_neg1 = size_t_neg2 := by decide
  have e2 : ¬ (3 : Nat) = size_t_neg2 := by decide
  rcases s with _ | ⟨b1, _ | ⟨b2, s⟩⟩
  · simp
  · simp
  · simp only [utf8_seq3] at h
    split_ifs at h
    · exact absurd h e2
    · exact absurd h e1
    · exact absurd h e1

theorem utf8_seq4_incomplete_short (b0 : Nat) (s : List Nat)
    (h : (utf8_seq4 b0 s).1 = size_t_neg2) : s.length < 3 := by
  have e1 : ¬ size_t_neg1 = size_t_neg2 := by decide
  have e2 : ¬ (4 : Nat) = size_t_neg2 := by decide
  rcases s with _ | ⟨b1, _ | ⟨b2, _ | ⟨b3, s⟩⟩⟩
  · simp
  · simp
  · simp
  · simp only [utf8_seq4] at h
    split_ifs at h
    · exact absurd h e2
    · exact absurd h e1
    · exact absurd h e1
    · exact absurd h e1

theorem utf8_locale_incomplete_short : mbrtowc_incomplete_short utf8_locale := by
  intro ps
  intro (s : List Nat)
  intro h
  change (utf8_decode s).1 = size_t_neg2 at h
  have e0 : ¬ (0 : Nat) = size_t_neg2 := by decide
  have e1 : ¬ size_t_neg1 = size_t_neg2 := by decide
  have e2 : ¬ (1 : Nat) = size_t_neg2 := by decide
  rcases s with _ | ⟨b0, s⟩
  · decide
  · simp only [utf8_decode] at h
    have key : s.length < 3 := by
      split_ifs at h
      · exact absurd h e0
      · exact absurd h e2
      · exact absurd h e1
      · exact utf8_seq2_incomplete_short b0 s h
      · exact utf8_seq3_incomplete_short b0 s h
      · exact utf8_seq4_incomplete_short b0 s h
      · exact absurd h e1
    simp only [List.length_cons, sizeof_wchar_t]
    omega

/-! ## The properties of the counters and of the aggregator -/

set_option maxRecDepth 100000

theorem counters_from_arguments_byte_counter (flags : Finset String) (g : Globals)
    (h : flags = ∅ ∨ "-c" ∈ flags ∨ "--bytes" ∈ flags) :
    (counters_from_arguments flags g).2.byte_counter.count = 0
      ∧ (counters_from_arguments flags g).2.byte_counter.active = true := by
  have hmem : counter_id.byte_counter ∈ (counters_from_arguments flags g).1 := by
    by_cases he : flags = ∅
    · subst he
      rw [counters_from_arguments_empty]
      simp
    · have hreq : "-c" ∈ flags ∨ "--bytes" ∈ flags := by
        rcases h with h | h
        · exact absurd h he
        · exact h
      rw [counters_from_arguments_fst flags g he]
      simp [requested, hreq]
  exact counters_from_arguments_reset flags g _ hmem

/-- C1: the byte counter driven by `process_block` counts every input byte.
For a locale whose `mbrtowc` keeps to its C contract, every block `cp` decodes
into units of at least one byte each whose lengths, together with the returned
residual, add up to the length of the block, the residual is 0 at end of
input, and an active byte counter grows by the length of the block less the
residual, so that over consecutive calls with the residual prepended every
input byte is counted once. When moreover `mbrtowc` reports an incomplete
sequence only on fewer than `sizeof(wchar_t)` bytes, so that every residual
fits the slack of the buffer of `process_stream`, then for every cutting `is`
of an input into non-empty chunks, streamed as `process_stream` does (residual
carried over, all chunks but the last with `eof = false`), an active byte
counter grows by exactly the number of input bytes, and on the standard-input
path, where `counters_from_arguments` has reset it, it ends equal to that
number. -/
theorem byte_count_equals_input_length (L : Locale) (hL : mbrtowc_contract L)
    (cp : List Byte) (eof : Bool) (is : List (List Byte)) (g g0 : Globals)
    (flags : Finset String)
    (hne : ∀ c ∈ is, c ≠ [])
    (hact : g.byte_counter.active = true)
    (hreq : flags = ∅ ∨ "-c" ∈ flags ∨ "--bytes" ∈ flags) :
    (∃ us k, block_units L cp eof = some (us, k)
        ∧ process_block L cp eof g = some (k, feed L g us)
        ∧ (∀ u ∈ us, 1 ≤ u.num_bytes)
        ∧ (us.map decoded_unit.num_bytes).sum + k = cp.length
        ∧ (eof = true → k = 0)
        ∧ (feed L g us).byte_counter.count + (k : Int)
            = g.byte_counter.count + (cp.length : Int))
    ∧ (mbrtowc_incomplete_short L →
        (process_stream (process_block L) is [] g).map (fun g1 => g1.byte_counter.count)
            = some (g.byte_counter.count + (is.flatten.length : Int))
        ∧ (process_stdin L is flags g0).map (fun r => r.2.byte_counter.count)
            = some (is.flatten.length : Int)) := by
  refine ⟨?_, fun hsh => ⟨?_, ?_⟩⟩
  · obtain ⟨us, k, he, h1, h2, h3⟩ :=
      block_units_loop_total L hL eof cp.length L.ps0 cp le_rfl
    refine ⟨us, k, he, ?_, h1, h2, h3, ?_⟩
    · rw [process_block_eq_feed, block_units, he]; rfl
    · rw [(feed_byte_counter L us g hact).2, ← h2]
      push_cast
      ring
  · obtain ⟨g1, h1, _, h3⟩ :=
      process_stream_byte_count L hL hsh is [] g hne (fun _ => rfl) (by decide) hact
    rw [h1, Option.map_some', h3]
    simp
  · obtain ⟨hc, ha⟩ := counters_from_arguments_byte_counter flags g0 hreq
    obtain ⟨g1, h1, _, h3⟩ := process_stream_byte_count L hL hsh is []
      (counters_from_arguments flags g0).2 hne (fun _ => rfl) (by decide) ha
    simp only [process_stdin, h1, Option.map_some', h3, hc]
    simp

/-- Witness for C1: the five bytes of an h, a euro sign and a line feed, cut
inside the euro sign, in the sample UTF-8 locale, whose incomplete sequences
have at most three bytes. -/
theorem byte_count_equals_input_length_witness :
    mbrtowc_contract utf8_locale
    ∧ (∀ c ∈ ([[104, 226, 130], [172, 10]] : List (List Byte)), c ≠ [])
    ∧ (counters_from_arguments {"-c"} Globals.fresh).2.byte_counter.active = true
    ∧ (({"-c"} : Finset String) = ∅ ∨ "-c" ∈ ({"-c"} : Finset String)
        ∨ "--bytes" ∈ ({"-c"} : Finset String))
    ∧ mbrtowc_incomplete_short utf8_locale
    ∧ (∃ us k, block_units utf8_locale [104, 226, 130] false = some (us, k)
        ∧ process_block utf8_locale [104, 226, 130] false
            (counters_from_arguments {"-c"} Globals.fresh).2
            = some (k, feed utf8_locale (counters_from_arguments {"-c"} Globals.fresh).2 us)
        ∧ (∀ u ∈ us, 1 ≤ u.num_bytes)
        ∧ (us.map decoded_unit.num_bytes).sum + k = ([104, 226, 130] : List Byte).length
        ∧ (false = true → k = 0)
        ∧ (feed utf8_locale (counters_from_arguments {"-c"} Globals.fresh).2 us).byte_counter.count
              + (k : Int)
            = (counters_from_arguments {"-c"} Globals.fresh).2.byte_counter.count
              + (([104, 226, 130] : List Byte).length : Int))
    ∧ (process_stream (process_block utf8_locale) [[104, 226, 130], [172, 10]] []
          (counters_from_arguments {"-c"} Globals.fresh).2).map
            (fun g1 => g1.byte_counter.count)
        = some ((counters_from_arguments {"-c"} Globals.fresh).2.byte_counter.count
            + ((([[104, 226, 130], [172, 10]] : List (List Byte)).flatten.length : Nat) : Int))
    ∧ (process_stdin utf8_locale [[104, 226, 130], [172, 10]] {"-c"} Globals.fresh).map
          (fun r => r.2.byte_counter.count)
        = some ((([[104, 226, 130], [172, 10]] : List (List Byte)).flatten.length : Nat) : Int) :=
  ⟨utf8_locale_contract, by decide, by decide, by decide, utf8_locale_incomplete_short,
    (byte_count_equals_input_length utf8_locale utf8_locale_contract [104, 226, 130] false
      [[104, 226, 130], [172, 10]] (counters_from_arguments {"-c"} Globals.fresh).2
      Globals.fresh {"-c"} (by decide) (by decide) (by decide)).1,
    (byte_count_equals_input_length utf8_locale utf8_locale_contract [104, 226, 130] false
      [[104, 226, 130], [172, 10]] (counters_from_arguments {"-c"} Globals.fresh).2
      Globals.fresh {"-c"} (by decide) (by decide) (by decide)).2 utf8_locale_incomplete_short⟩

/-- C2: the raw scan counts the line feeds whatever the block boundaries.
Every call of `process_block_lines_only` adds the number of bytes 0x0A of its
block to `line_counter.count` and returns residual 0; hence for every cutting
`is` of an input into non-empty chunks, `process_stream` over a reset line
counter ends with the number of line feeds of the whole input, and two
cuttings of the same input end in the same state. -/
theorem line_scan_counts_line_feeds (cp : List Byte) (eof : Bool) (g : Globals)
    (is is2 : List (List Byte))
    (hne : ∀ c ∈ is, c ≠ []) (hne2 : ∀ c ∈ is2, c ≠ []) (hsame : is2.flatten = is.flatten) :
    process_block_lines_only cp eof g
        = some (0, { g with line_counter :=
            { g.line_counter with count := g.line_counter.count + (cp.count 10 : Nat) } })
    ∧ (process_stream process_block_lines_only is []
          { g with line_counter := g.line_counter.reset }).map
            (fun g1 => g1.line_counter.count)
        = some ((is.flatten.count 10 : Nat) : Int)
    ∧ process_stream process_block_lines_only is2 [] g
        = process_stream process_block_lines_only is [] g := by
  refine ⟨process_block_lines_only_eq cp eof g, ?_, ?_⟩
  · rw [process_stream_lines_only is _ hne]
    simp [counter_t.reset]
  · rw [process_stream_lines_only is g hne, process_stream_lines_only is2 g hne2, hsame]

/-- Witness for C2: two lines of two letters, cut after the first byte and cut
after the third byte. -/
theorem line_scan_counts_line_feeds_witness :
    (∀ c ∈ ([[97], [10, 98, 10]] : List (List Byte)), c ≠ [])
    ∧ (∀ c ∈ ([[97, 10, 98], [10]] : List (List Byte)), c ≠ [])
    ∧ ([[97, 10, 98], [10]] : List (List Byte)).flatten
        = ([[97], [10, 98, 10]] : List (List Byte)).flatten
    ∧ (process_block_lines_only [10, 98, 10] true Globals.fresh
        = some (0, { Globals.fresh with line_counter :=
            { Globals.fresh.line_counter with
              count := Globals.fresh.line_counter.count
                + ((([10, 98, 10] : List Byte).count 10 : Nat) : Int) } })
      ∧ (process_stream process_block_lines_only [[97], [10, 98, 10]] []
            { Globals.fresh with line_counter := Globals.fresh.line_counter.reset }).map
              (fun g1 => g1.line_counter.count)
          = some (((([[97], [10, 98, 10]] : List (List Byte)).flatten.count 10 : Nat)) : Int)
      ∧ process_stream process_block_lines_only [[97, 10, 98], [10]] [] Globals.fresh
          = process_stream process_block_lines_only [[97], [10, 98, 10]] [] Globals.fresh) :=
  ⟨by decide, by decide, by decide,
    line_scan_counts_line_feeds [10, 98, 10] true Globals.fresh [[97], [10, 98, 10]]
      [[97, 10, 98], [10]] (by decide) (by decide) (by decide)⟩

/-- C3: the word counter does not see the length of a run of white space.
In any sequence of units, a single non-error white-space unit `w` and a
non-empty run of non-error white-space units in its place leave the word
counter in the same state, count included, from whatever state it starts, the
fresh one among them; and the inputs a-space-space-space-b and a-space-b both
count 2 words on the standard-input path of the sample single-byte locale. -/
theorem word_count_whitespace_run_insensitive (L : Locale) (c : word_counter_t)
    (before after run : List decoded_unit) (w : decoded_unit)
    (hw : w.error = false ∧ is_word_sep L w.wc = true)
    (hrun : run ≠ [])
    (hall : ∀ u ∈ run, u.error = false ∧ is_word_sep L u.wc = true) :
    word_feed L c (before ++ run ++ after) = word_feed L c (before ++ [w] ++ after)
    ∧ (word_feed L c (before ++ run ++ after)).count
        = (word_feed L c (before ++ [w] ++ after)).count
    ∧ (process_stdin c_locale [[97, 32, 32, 32, 98]] {"-w"} Globals.fresh).map Prod.fst
        = some [["2"]]
    ∧ (process_stdin c_locale [[97, 32, 98]] {"-w"} Globals.fresh).map Prod.fst
        = some [["2"]] := by
  have hone : ∀ u ∈ [w], u.error = false ∧ is_word_sep L u.wc = true := by
    intro u hu
    rw [List.mem_singleton.1 hu]
    exact hw
  have key : word_feed L c (before ++ run ++ after) = word_feed L c (before ++ [w] ++ after) := by
    rw [word_feed_append, word_feed_append, word_feed_append L c (before ++ [w]),
      word_feed_append L c before [w],
      word_feed_sep_run L run _ hrun hall, word_feed_sep_run L [w] _ (by simp) hone]
  exact ⟨key, by rw [key], by decide, by decide⟩

/-- Witness for C3: one space against three spaces between two letters, in the
sample single-byte locale, from a fresh word counter. -/
theorem word_count_whitespace_run_insensitive_witness :
    ((decoded_unit.mk 32 1 false).error = false
        ∧ is_word_sep c_locale (decoded_unit.mk 32 1 false).wc = true)
    ∧ ([decoded_unit.mk 32 1 false, decoded_unit.mk 9 1 false, decoded_unit.mk 10 1 false]
        ≠ [])
    ∧ (∀ u ∈ [decoded_unit.mk 32 1 false, decoded_unit.mk 9 1 false,
          decoded_unit.mk 10 1 false],
        u.error = false ∧ is_word_sep c_locale u.wc = true)
    ∧ (word_feed c_locale {} ([decoded_unit.mk 97 1 false]
          ++ [decoded_unit.mk 32 1 false, decoded_unit.mk 9 1 false, decoded_unit.mk 10 1 false]
          ++ [decoded_unit.mk 98 1 false])
        = word_feed c_locale {} ([decoded_unit.mk 97 1 false] ++ [decoded_unit.mk 32 1 false]
          ++ [decoded_unit.mk 98 1 false])
      ∧ (word_feed c_locale {} ([decoded_unit.mk 97 1 false]
          ++ [decoded_unit.mk 32 1 false, decoded_unit.mk 9 1 false, decoded_unit.mk 10 1 false]
          ++ [decoded_unit.mk 98 1 false])).count
        = (word_feed c_locale {} ([decoded_unit.mk 97 1 false] ++ [decoded_unit.mk 32 1 false]
          ++ [decoded_unit.mk 98 1 false])).count
      ∧ (process_stdin c_locale [[97, 32, 32, 32, 98]] {"-w"} Globals.fresh).map Prod.fst
          = some [["2"]]
      ∧ (process_stdin c_locale [[97, 32, 98]] {"-w"} Globals.fresh).map Prod.fst
          = some [["2"]]) :=
  ⟨by decide, by decide, by decide,
    word_count_whitespace_run_insensitive c_locale {} [decoded_unit.mk 97 1 false]
      [decoded_unit.mk 98 1 false]
      [decoded_unit.mk 32 1 false, decoded_unit.mk 9 1 false, decoded_unit.mk 10 1 false]
      (decoded_unit.mk 32 1 false) (by decide) (by decide) (by decide)⟩

/-- C5: `counters_from_arguments` returns the active counters in a fixed order
set by the flags alone. With no flag it returns lines, words, bytes; otherwise
it returns, of lines, words, chars, bytes, max-line-length in this order,
exactly those whose short or long flag is present, each once; and every
counter it returns has count 0 and is active. -/
theorem counters_from_arguments_order (flags : Finset String) (g : Globals) :
    (flags = ∅ → (counters_from_arguments flags g).1
        = [counter_id.line_counter, counter_id.word_counter, counter_id.byte_counter])
    ∧ (flags ≠ ∅ → (counters_from_arguments flags g).1
        = [counter_id.line_counter, counter_id.word_counter, counter_id.char_counter,
            counter_id.byte_counter, counter_id.longest_line_counter].filter
              (requested flags))
    ∧ (flags ≠ ∅ → (counters_from_arguments flags g).1.Nodup
        ∧ List.Sublist (counters_from_arguments flags g).1
            [counter_id.line_counter, counter_id.word_counter, counter_id.char_counter,
              counter_id.byte_counter, counter_id.longest_line_counter]
        ∧ ∀ c, c ∈ (counters_from_arguments flags g).1 ↔ requested flags c = true)
    ∧ (∀ c ∈ (counters_from_arguments flags g).1,
        ((counters_from_arguments flags g).2.deref c).count = 0
          ∧ ((counters_from_arguments flags g).2.deref c).active = true) := by
  refine ⟨?_, counters_from_arguments_fst flags g, ?_, counters_from_arguments_reset flags g⟩
  · intro h
    subst h
    rw [counters_from_arguments_empty]
  · intro h
    rw [counters_from_arguments_fst flags g h]
    refine ⟨List.Nodup.filter _ (by decide), List.filter_sublist _, ?_⟩
    intro c
    rw [List.mem_filter]
    constructor
    · exact fun hc => hc.2
    · intro hc
      refine ⟨?_, hc⟩
      cases c <;> simp

/-- Witness for C5: the flags `-c`, `--lines` and `-w`, and the empty flag set. -/
theorem counters_from_arguments_order_witness :
    ((∅ : Finset String) = ∅ ∧ ({"-c", "--lines", "-w"} : Finset String) ≠ ∅)
    ∧ (counters_from_arguments ∅ Globals.fresh).1
        = [counter_id.line_counter, counter_id.word_counter, counter_id.byte_counter]
    ∧ (counters_from_arguments {"-c", "--lines", "-w"} Globals.fresh).1
        = [counter_id.line_counter, counter_id.word_counter, counter_id.char_counter,
            counter_id.byte_counter, counter_id.longest_line_counter].filter
              (requested {"-c", "--lines", "-w"})
    ∧ (counters_from_arguments {"-c", "--lines", "-w"} Globals.fresh).1
        = [counter_id.line_counter, counter_id.word_counter, counter_id.byte_counter]
    ∧ (((counters_from_arguments {"-c", "--lines", "-w"} Globals.fresh).2.deref
          counter_id.word_counter).count = 0
        ∧ ((counters_from_arguments {"-c", "--lines", "-w"} Globals.fresh).2.deref
          counter_id.word_counter).active = true) :=
  ⟨⟨rfl, by decide⟩,
    (counters_from_arguments_order ∅ Globals.fresh).1 rfl,
    (counters_from_arguments_order {"-c", "--lines", "-w"} Globals.fresh).2.1 (by decide),
    by decide,
    (counters_from_arguments_order {"-c", "--lines", "-w"} Globals.fresh).2.2.2
      counter_id.word_counter (by decide)⟩

/-- C9: a tab moves the current visual length to the next multiple of 8.
From a current length `len ≥ 0` a non-error tab leaves the current length at
`8 * (len / 8 + 1)`, the least multiple of 8 strictly above `len`; and a fresh
longest-line counter fed a tab and then a printable character `x` of width 1
(neither a tab nor a line feed) ends with count 9. -/
theorem tab_advances_to_next_multiple_of_eight (L : Locale) (c : longest_line_counter_t)
    (n m : Nat) (x : WChar)
    (h : 0 ≤ c.current_length)
    (hp : L.iswprint x = true) (hw : L.wcwidth x = 1) (h9 : x ≠ 9) (h10 : x ≠ 10) :
    (c.process_wchar L 9 n false).current_length = 8 * (c.current_length / 8 + 1)
    ∧ (8 : Int) ∣ (c.process_wchar L 9 n false).current_length
    ∧ c.current_length < (c.process_wchar L 9 n false).current_length
    ∧ (∀ k : Int, 8 ∣ k → c.current_length < k →
        (c.process_wchar L 9 n false).current_length ≤ k)
    ∧ (longest_feed L {} [decoded_unit.mk 9 n false, decoded_unit.mk x m false]).count = 9 := by
  rw [longest_process_wchar_tab L c n h]
  refine ⟨rfl, Dvd.intro _ rfl, ?_, ?_, longest_feed_tab_letter L x n m hp hw h9 h10⟩
  · show c.current_length < 8 * (c.current_length / 8 + 1)
    omega
  · intro k hk hlt
    show 8 * (c.current_length / 8 + 1) ≤ k
    obtain ⟨j, rfl⟩ := hk
    omega

/-- Witness for C9: a tab and the letter x in the sample single-byte locale,
from the current length 3. -/
theorem tab_advances_to_next_multiple_of_eight_witness :
    (0 : Int) ≤ ({ current_length := 3 } : longest_line_counter_t).current_length
    ∧ c_locale.iswprint 120 = true ∧ c_locale.wcwidth 120 = 1
    ∧ (120 : WChar) ≠ 9 ∧ (120 : WChar) ≠ 10
    ∧ ((({ current_length := 3 } : longest_line_counter_t).process_wchar c_locale 9 1
          false).current_length
        = 8 * (({ current_length := 3 } : longest_line_counter_t).current_length / 8 + 1)
      ∧ (8 : Int) ∣ (({ current_length := 3 } : longest_line_counter_t).process_wchar
          c_locale 9 1 false).current_length
      ∧ ({ current_length := 3 } : longest_line_counter_t).current_length
          < (({ current_length := 3 } : longest_line_counter_t).process_wchar c_locale 9 1
              false).current_length
      ∧ (∀ k : Int, 8 ∣ k →
          ({ current_length := 3 } : longest_line_counter_t).current_length < k →
          (({ current_length := 3 } : longest_line_counter_t).process_wchar c_locale 9 1
            false).current_length ≤ k)
      ∧ (longest_feed c_locale {}
          [decoded_unit.mk 9 1 false, decoded_unit.mk 120 1 false]).count = 9) :=
  ⟨by decide, by decide, by decide, by decide, by decide,
    tab_advances_to_next_multiple_of_eight c_locale { current_length := 3 } 1 1 120
      (by decide) (by decide) (by decide) (by decide) (by decide)⟩

/-- C4: with no option and two files the totals row carries no number.
The run of `process_files` in the sample single-byte locale on the files `a`
(the three bytes h, i, line feed) and `b` (x, space, y, line feed) with an
empty flag set: each file row has the three default counts and its name, the
totals row has the label alone, because `total_counters` is given
`cl_args.flags.size()` entries, which is 0 here. -/
theorem process_files_default_totals_row :
    (process_files c_locale
        (sample_fs [("a", [104, 105, 10]), ("b", [120, 32, 121, 10])]) ∅ ["a", "b"]
        Globals.fresh).map Prod.fst
      = some [["1", "1", "3", "a"], ["1", "2", "4", "b"], ["total"]] := by
  decide

/-- C6: the word counter carries `in_word` from one file into the next.
With `-w`, the file `a` holding the single letter a and the file `b` holding
the single letter b: processed after `a`, the file `b` reports 0 words;
processed alone, it reports 1. `counter_t::reset` leaves `in_word` as the
previous file left it. -/
theorem word_counter_in_word_survives_reset :
    (process_files c_locale (sample_fs [("a", [97]), ("b", [98])]) {"-w"} ["a", "b"]
        Globals.fresh).map Prod.fst
      = some [["1", "a"], ["0", "b"], ["1", "total"]]
    ∧ (process_files c_locale (sample_fs [("a", [97]), ("b", [98])]) {"-w"} ["b"]
        Globals.fresh).map Prod.fst
      = some [["1", "b"]]
    ∧ ((process_files c_locale (sample_fs [("a", [97]), ("b", [98])]) {"-w"} ["a"]
        Globals.fresh).map (fun r => (word_counter_t.reset r.2.word_counter).in_word))
      = some true := by
  decide

/-- C7: the longest-line counter carries `current_length` from one file into
the next. With `-L`, the file `a` holding the letters a, b, c without a line
feed and the file `b` holding the letter d: processed after `a`, the file `b`
reports 4; processed alone, it reports 1. `counter_t::reset` leaves
`current_length` as the previous file left it. -/
theorem longest_line_current_length_survives_reset :
    (process_files c_locale (sample_fs [("a", [97, 98, 99]), ("b", [100])]) {"-L"}
        ["a", "b"] Globals.fresh).map Prod.fst
      = some [["3", "a"], ["4", "b"], ["7", "total"]]
    ∧ (process_files c_locale (sample_fs [("a", [97, 98, 99]), ("b", [100])]) {"-L"}
        ["b"] Globals.fresh).map Prod.fst
      = some [["1", "b"]]
    ∧ ((process_files c_locale (sample_fs [("a", [97, 98, 99]), ("b", [100])]) {"-L"}
        ["a"] Globals.fresh).map
          (fun r => (longest_line_counter_t.reset r.2.longest_line_counter).current_length))
      = some 3 := by
  decide

/-- C8: a tab that ends the input is not taken into the count. In every
locale a fresh longest-line counter fed a single tab ends with current length
8 and count 0, and fed the letter a and a tab it ends with current length 8
and count 1: the tab branch of `process_wchar` advances `current_length`
without comparing it to `count`. On the standard-input path of the sample
single-byte locale, `-L` on the one-byte input of a tab prints 0. -/
theorem longest_line_trailing_tab_not_counted (L : Locale) :
    (longest_feed L {} [decoded_unit.mk 9 1 false]).count = 0
    ∧ (longest_feed L {} [decoded_unit.mk 9 1 false]).current_length = 8
    ∧ (longest_feed c_locale {} [decoded_unit.mk 97 1 false, decoded_unit.mk 9 1 false]).count
        = 1
    ∧ (longest_feed c_locale {}
        [decoded_unit.mk 97 1 false, decoded_unit.mk 9 1 false]).current_length = 8
    ∧ (process_stdin c_locale [[9]] {"-L"} Globals.fresh).map Prod.fst = some [["0"]] := by
  refine ⟨?_, ?_, by decide, by decide, by decide⟩
  · simp [longest_feed, longest_line_counter_t.process_wchar]
  · simp [longest_feed, longest_line_counter_t.process_wchar]

/-- C10: cutting the input into two blocks does not change the character
count. For a locale whose `mbrtowc` keeps to its C contract, does not depend
on the shift state and does not change a decision when more bytes follow (as
in UTF-8 and in every single-byte encoding): for every input `b1 ++ b2`, the
block `b1` decoded with `eof = false` returns a residual `k`, the last `k`
bytes of `b1` followed by `b2` decode with `eof = true` to residual 0, the
whole input decodes as one final block to residual 0, and the character
counter ends with the same count both ways, wherever the cut falls; for
non-empty blocks the latter is the run of `process_stream` on the single
chunk, and the former is its run on the two chunks whenever the residual `k`
fits the slack of `sizeof(wchar_t)` bytes that the buffer of `process_stream`
has for it. -/
theorem char_count_split_block (L : Locale) (hL : mbrtowc_contract L)
    (hs : mbrtowc_stateless L) (hst : mbrtowc_stable L) (b1 b2 : List Byte) (g : Globals) :
    ∃ k g1 g2 gw, process_block L b1 false g = some (k, g1)
      ∧ process_block L (b1.drop (b1.length - k) ++ b2) true g1 = some (0, g2)
      ∧ process_block L (b1 ++ b2) true g = some (0, gw)
      ∧ g2.char_counter.count = gw.char_counter.count
      ∧ (b1 ≠ [] → b2 ≠ [] →
          (k ≤ sizeof_wchar_t → process_stream (process_block L) [b1, b2] [] g = some g2)
            ∧ process_stream (process_block L) [b1 ++ b2] [] g = some gw) := by
  obtain ⟨k, g1, g2, gw, h1, h2, h3, h4⟩ := process_block_split L hL hs hst b1 b2 g
  refine ⟨k, g1, g2, gw, h1, h2, h3, by rw [h4], ?_⟩
  intro hb1 hb2
  have hc0 : ¬ sizeof_wchar_t < ([] : List Byte).length := by decide
  have hl1 : ¬ b1.length < 1 := by
    have := List.length_pos.2 hb1; omega
  have hl2 : ¬ (b1.drop (b1.length - k) ++ b2).length < 1 := by
    have := List.length_pos.2 hb2
    simp only [List.length_append]; omega
  have hl3 : ¬ (b1 ++ b2).length < 1 := by
    have := List.length_pos.2 hb1
    simp only [List.length_append]; omega
  constructor
  · intro hk
    have hc1 : ¬ sizeof_wchar_t < (b1.drop (b1.length - k)).length := by
      rw [List.length_drop]; omega
    simp only [process_stream, List.flatten_cons, List.flatten_nil, List.append_nil,
      List.nil_append, List.append_eq_nil, hb1, hb2, false_and, and_false, if_false,
      decide_False, decide_True, hl1, h1, hl2, h2, hc0, hc1]
  · simp only [process_stream, List.flatten_cons, List.flatten_nil, List.append_nil,
      List.nil_append, List.append_eq_nil, hb1, hb2, false_and, and_false, if_false,
      decide_True, hl3, h3, hc0]

/-- Witness for C10: the letter h, a euro sign and a line feed in the sample
UTF-8 locale, cut after the second of the three bytes of the euro sign: the
first block leaves a residual of 2 bytes and the count is 3 both ways. -/
theorem char_count_split_block_witness :
    mbrtowc_contract utf8_locale ∧ mbrtowc_stateless utf8_locale ∧ mbrtowc_stable utf8_locale
    ∧ (∃ k g1 g2 gw,
        process_block utf8_locale [104, 226, 130] false
            (counters_from_arguments {"-m"} Globals.fresh).2 = some (k, g1)
        ∧ process_block utf8_locale
            (([104, 226, 130] : List Byte).drop (([104, 226, 130] : List Byte).length - k)
              ++ [172, 10]) true g1 = some (0, g2)
        ∧ process_block utf8_locale ([104, 226, 130] ++ [172, 10]) true
            (counters_from_arguments {"-m"} Globals.fresh).2 = some (0, gw)
        ∧ g2.char_counter.count = gw.char_counter.count
        ∧ (([104, 226, 130] : List Byte) ≠ [] → ([172, 10] : List Byte) ≠ [] →
            (k ≤ sizeof_wchar_t →
              process_stream (process_block utf8_locale) [[104, 226, 130], [172, 10]] []
                (counters_from_arguments {"-m"} Globals.fresh).2 = some g2)
              ∧ process_stream (process_block utf8_locale) [[104, 226, 130] ++ [172, 10]] []
                (counters_from_arguments {"-m"} Globals.fresh).2 = some gw))
    ∧ (process_block utf8_locale [104, 226, 130] false
        (counters_from_arguments {"-m"} Globals.fresh).2).map Prod.fst = some 2
    ∧ (process_stream (process_block utf8_locale) [[104, 226, 130], [172, 10]] []
        (counters_from_arguments {"-m"} Globals.fresh).2).map
          (fun g => g.char_counter.count) = some 3
    ∧ (process_stream (process_block utf8_locale) [[104, 226, 130, 172, 10]] []
        (counters_from_arguments {"-m"} Globals.fresh).2).map
          (fun g => g.char_counter.count) = some 3 :=
  ⟨utf8_locale_contract, utf8_locale_stateless, utf8_locale_stable,
    char_count_split_block utf8_locale utf8_locale_contract utf8_locale_stateless
      utf8_locale_stable [104, 226, 130] [172, 10]
      (counters_from_arguments {"-m"} Globals.fresh).2,
    by decide, by decide, by decide⟩

/-! ## The shift state across blocks -/

theorem block_units_loop_fuel (L : Locale) (eof : Bool) :
    ∀ (fuel fuel1 : Nat) (ps : L.MbState) (cp : List Byte),
      cp.length ≤ fuel → cp.length ≤ fuel1 →
      block_units_loop L eof fuel ps cp = block_units_loop L eof fuel1 ps cp := by
  intro fuel
  induction fuel with
  | zero =>
    intro fuel1 ps cp h h1
    cases cp with
    | nil => simp [block_units_loop]
    | cons c cs => simp at h
  | succ fuel ih =>
    intro fuel1 ps cp h h1
    cases cp with
    | nil => simp [block_units_loop]
    | cons c cs =>
      cases fuel1 with
      | zero => simp at h1
      | succ fuel1 =>
        have hcs : cs.length ≤ fuel := by simpa using h
        have hcs1 : cs.length ≤ fuel1 := by simpa using h1
        simp only [block_units_loop]
        split_ifs with hb h0 hn1 hn2 he hle
        · rw [ih fuel1 ps cs hcs hcs1]
        · rw [ih fuel1 _ cs hcs hcs1]
        · rw [ih fuel1 _ cs hcs hcs1]
        · rfl
        · simp [block_units_loop]
        · have hd : ((c :: cs).drop (L.mbrtowc ps (c :: cs)).1).length ≤ fuel := by
            rw [List.length_drop]; simp only [List.length_cons] at hle ⊢; omega
          have hd1 : ((c :: cs).drop (L.mbrtowc ps (c :: cs)).1).length ≤ fuel1 := by
            rw [List.length_drop]; simp only [List.length_cons] at hle ⊢; omega
          rw [ih fuel1 _ _ hd hd1]
        · rfl

theorem process_block_loop_fuel (L : Locale) (eof : Bool) (fuel fuel1 : Nat)
    (ps : L.MbState) (cp : List Byte) (g : Globals)
    (h : cp.length ≤ fuel) (h1 : cp.length ≤ fuel1) :
    process_block_loop L eof fuel ps cp g = process_block_loop L eof fuel1 ps cp g := by
  rw [process_block_loop_eq_feed, process_block_loop_eq_feed,
    block_units_loop_fuel L eof fuel fuel1 ps cp h h1]

theorem process_stream_cons (f : List Byte → Bool → Globals → Option (Nat × Globals))
    (chunk : List Byte) (is : List (List Byte)) (buf : List Byte) (g : Globals)
    (hchunk : chunk ≠ []) :
    process_stream f (chunk :: is) buf g
      = if sizeof_wchar_t < buf.length then none
        else (f (buf ++ chunk) (decide (is.flatten = [])) g).bind
          (fun r => process_stream f is
            ((buf ++ chunk).drop ((buf ++ chunk).length - r.1)) r.2) := by
  have h1 : ¬ (chunk :: is).flatten = [] := by simp [hchunk]
  have h2 : ¬ (buf ++ chunk).length < 1 := by
    have := List.length_pos.2 hchunk
    simp only [List.length_append]; omega
  simp only [process_stream, h1, h2, if_false]
  split_ifs
  · rfl
  · cases f (buf ++ chunk) (decide (is.flatten = [])) g with
    | none => rfl
    | some r => rfl

/-- C11, as the code has it: every block is decoded from the initial shift
state, and the state is threaded only inside a block. In `process_stream`
each block, the first of a stream and every later one alike, is the residual
bytes followed by the new chunk, decoded by the loop of `process_block`
entered with `ps{}` (the run has no result when the residual is longer than
the slack of `sizeof(wchar_t)` bytes the buffer has for it); inside a block,
after a character decoded by `mbrtowc` the loop goes on with the state that
call left. -/
theorem block_decoding_restarts_from_initial_state (L : Locale) (chunk : List Byte)
    (is : List (List Byte)) (buf : List Byte) (g : Globals) (ps : L.MbState) (c : Byte)
    (cs : List Byte) (eof : Bool)
    (hchunk : chunk ≠ [])
    (hb : is_basic c = false)
    (h0 : (L.mbrtowc ps (c :: cs)).1 ≠ 0)
    (h1 : (L.mbrtowc ps (c :: cs)).1 ≠ size_t_neg1)
    (h2 : (L.mbrtowc ps (c :: cs)).1 ≠ size_t_neg2)
    (hle : (L.mbrtowc ps (c :: cs)).1 ≤ (c :: cs).length) :
    process_stream (process_block L) (chunk :: is) buf g
        = (if sizeof_wchar_t < buf.length then none
          else (process_block_from L L.ps0 (buf ++ chunk) (decide (is.flatten = [])) g).bind
            (fun r => process_stream (process_block L) is
              ((buf ++ chunk).drop ((buf ++ chunk).length - r.1)) r.2))
    ∧ process_block_from L ps (c :: cs) eof g
        = process_block_from L (L.mbrtowc ps (c :: cs)).2.2
            ((c :: cs).drop (L.mbrtowc ps (c :: cs)).1) eof
            (process_wchar L g (L.mbrtowc ps (c :: cs)).2.1 (L.mbrtowc ps (c :: cs)).1 false) := by
  refine ⟨process_stream_cons (process_block L) chunk is buf g hchunk, ?_⟩
  have hd : ((c :: cs).drop (L.mbrtowc ps (c :: cs)).1).length ≤ cs.length := by
    rw [List.length_drop]; simp only [List.length_cons] at hle ⊢; omega
  simp only [process_block_from, List.length_cons, process_block_loop, hb, h0, h1, h2,
    if_false, Bool.false_eq_true]
  rw [if_pos (by simpa using hle)]
  exact process_block_loop_fuel L eof _ _ _ _ _ hd le_rfl

/-- Witness for C11 as the code has it: the bytes of an e with acute accent
and a line feed in the sample restartable locale, after the residual byte 195. -/
theorem block_decoding_restarts_from_initial_state_witness :
    ([169, 10] : List Byte) ≠ []
    ∧ is_basic 195 = false
    ∧ (utf8_restart_locale.mbrtowc [] [195, 169, 10]).1 ≠ 0
    ∧ (utf8_restart_locale.mbrtowc [] [195, 169, 10]).1 ≠ size_t_neg1
    ∧ (utf8_restart_locale.mbrtowc [] [195, 169, 10]).1 ≠ size_t_neg2
    ∧ (utf8_restart_locale.mbrtowc [] [195, 169, 10]).1 ≤ ([195, 169, 10] : List Byte).length
    ∧ (process_stream (process_block utf8_restart_locale) ([169, 10] :: []) [195]
          (counters_from_arguments {"-m"} Globals.fresh).2
        = (process_block_from utf8_restart_locale utf8_restart_locale.ps0 ([195] ++ [169, 10])
            (decide (([] : List (List Byte)).flatten = []))
            (counters_from_arguments {"-m"} Globals.fresh).2).bind
            (fun r => process_stream (process_block utf8_restart_locale) []
              (([195] ++ [169, 10] : List Byte).drop
                (([195] ++ [169, 10] : List Byte).length - r.1)) r.2)
      ∧ process_block_from utf8_restart_locale [] (195 :: [169, 10]) true
          (counters_from_arguments {"-m"} Globals.fresh).2
        = process_block_from utf8_restart_locale
            (utf8_restart_locale.mbrtowc [] (195 :: [169, 10])).2.2
            ((195 :: [169, 10] : List Byte).drop
              (utf8_restart_locale.mbrtowc [] (195 :: [169, 10])).1) true
            (process_wchar utf8_restart_locale (counters_from_arguments {"-m"} Globals.fresh).2
              (utf8_restart_locale.mbrtowc [] (195 :: [169, 10])).2.1
              (utf8_restart_locale.mbrtowc [] (195 :: [169, 10])).1 false)) :=
  ⟨by decide, by decide, by decide, by decide, by decide, by decide,
    block_decoding_restarts_from_initial_state utf8_restart_locale [169, 10] [] [195]
      (counters_from_arguments {"-m"} Globals.fresh).2 [] 195 [169, 10] true
      (by decide) (by decide) (by decide) (by decide) (by decide) (by decide)⟩

/-- C11 fails as stated: the shift state a block leaves is not the state the
next block starts from. In the sample restartable locale the block h, 195
(decoded with `eof = false`) leaves the state holding the byte 195 and the
residual 1, while the initial state is empty; the next block 195, 169, 10 is
decoded from the initial state and counts 2 characters, where it would count
1 if it were decoded from the state the first block left. -/
theorem shift_state_not_threaded_across_blocks :
    (block_end_state utf8_restart_locale [104, 195] false : Option (List Byte)) = some [195]
    ∧ (utf8_restart_locale.ps0 : List Byte) = []
    ∧ (process_block utf8_restart_locale [104, 195] false
        (counters_from_arguments {"-m"} Globals.fresh).2).map
          (fun r => (r.1, r.2.char_counter.count)) = some (1, 1)
    ∧ ((process_block utf8_restart_locale [104, 195] false
          (counters_from_arguments {"-m"} Globals.fresh).2).bind
        (fun r => process_block utf8_restart_locale [195, 169, 10] true r.2)).map
          (fun r => r.2.char_counter.count) = some 3
    ∧ ((process_block utf8_restart_locale [104, 195] false
          (counters_from_arguments {"-m"} Globals.fresh).2).bind
        (fun r => process_block_from utf8_restart_locale [195] [195, 169, 10] true r.2)).map
          (fun r => r.2.char_counter.count) = some 2
    ∧ (process_stream (process_block utf8_restart_locale) [[104, 195], [169, 10]] []
        (counters_from_arguments {"-m"} Globals.fresh).2).map
          (fun g => g.char_counter.count) = some 3 := by
  refine ⟨rfl, rfl, ?_, ?_, ?_, ?_⟩ <;> decide

/-! ## One row for every file name -/

theorem process_stream_total (f : List Byte → Bool → Globals → Option (Nat × Globals))
    (hf : ∀ cp eof g, ∃ r, f cp eof g = some r ∧ r.1 ≤ sizeof_wchar_t) :
    ∀ (is : List (List Byte)) (buf : List Byte) (g : Globals),
      buf.length ≤ sizeof_wchar_t →
      ∃ g1, process_stream f is buf g = some g1 := by
  intro is
  induction is with
  | nil => intro buf g _; exact ⟨g, rfl⟩
  | cons chunk rest ih =>
    intro buf g hbuf
    simp only [process_stream]
    split_ifs with h1 h2 h3
    · exact ⟨g, rfl⟩
    · omega
    · exact ⟨g, rfl⟩
    · obtain ⟨r, hr, hle⟩ := hf (buf ++ chunk) (decide (rest.flatten = [])) g
      rw [hr]
      exact ih _ _ (by rw [List.length_drop]; omega)

theorem process_block_total (L : Locale) (hL : mbrtowc_contract L) (cp : List Byte)
    (eof : Bool) (g : Globals) : ∃ r, process_block L cp eof g = some r := by
  obtain ⟨us, k, he, _⟩ := block_units_loop_total L hL eof cp.length L.ps0 cp le_rfl
  exact ⟨(k, feed L g us), by rw [process_block_eq_feed, block_units, he]; rfl⟩

theorem process_block_total_short (L : Locale) (hL : mbrtowc_contract L)
    (hsh : mbrtowc_incomplete_short L) (cp : List Byte) (eof : Bool) (g : Globals) :
    ∃ r, process_block L cp eof g = some r ∧ r.1 ≤ sizeof_wchar_t := by
  obtain ⟨us, k, he, _⟩ := block_units_loop_total L hL eof cp.length L.ps0 cp le_rfl
  have hk := block_units_loop_residual_short L hsh eof cp.length L.ps0 cp us k he
  exact ⟨(k, feed L g us), by rw [process_block_eq_feed, block_units, he]; rfl,
    Nat.le_of_lt hk⟩

theorem process_block_lines_only_total (cp : List Byte) (eof : Bool) (g : Globals) :
    ∃ r, process_block_lines_only cp eof g = some r ∧ r.1 ≤ sizeof_wchar_t :=
  ⟨_, rfl, Nat.zero_le _⟩

theorem counters_from_arguments_fst_indep (flags : Finset String) (g g1 : Globals) :
    (counters_from_arguments flags g).1 = (counters_from_arguments flags g1).1 := by
  by_cases h : flags = ∅
  · subst h
    rw [counters_from_arguments_empty, counters_from_arguments_empty]
  · rw [counters_from_arguments_fst flags g h, counters_from_arguments_fst flags g1 h]

theorem process_file_total (L : Locale) (hL : mbrtowc_contract L)
    (hsh : mbrtowc_incomplete_short L) (fs : FileSystem)
    (fname : String) (flags : Finset String) (g : Globals) :
    ∃ counts g1, process_file L fs fname flags g = some (counts, g1)
      ∧ counts.length = (counters_from_arguments flags g).1.length := by
  have hline : ∀ g0 : Globals, ∃ g1, line_counter_t.process_file fs fname g0 = some g1 := by
    intro g0
    simp only [line_counter_t.process_file]
    cases fs.contents fname with
    | none => exact ⟨g0, rfl⟩
    | some data =>
      exact process_stream_total _ process_block_lines_only_total _ _ _ (Nat.zero_le _)
  have hblock : ∀ (is : List (List Byte)) (g0 : Globals),
      ∃ g1, process_stream (process_block L) is [] g0 = some g1 :=
    fun is g0 =>
      process_stream_total _ (process_block_total_short L hL hsh) is [] g0 (Nat.zero_le _)
  simp only [process_file]
  generalize hg1 : (if (counters_from_arguments flags g).2.byte_counter.active = true then
    ({ (counters_from_arguments flags g).2 with
        byte_counter := { byte_counter_t.process_file fs
          (counters_from_arguments flags g).2.byte_counter fname with active := false } } :
      Globals)
    else (counters_from_arguments flags g).2) = g1
  by_cases hl : g1.line_counter.active = true
  · obtain ⟨g2, hg2⟩ := hline g1
    simp only [hl, if_true, hg2, Option.map_some']
    split_ifs
    · cases hc : fs.contents fname with
      | none => exact ⟨_, _, rfl, by simp [to_counts]⟩
      | some data =>
        obtain ⟨g3, hg3⟩ := hblock (ifstream_reads data.length data)
          { g2 with line_counter := { g2.line_counter with active := false } }
        simp only [hg3, Option.map_some']
        exact ⟨_, _, rfl, by simp [to_counts]⟩
    · exact ⟨_, _, rfl, by simp [to_counts]⟩
  · simp only [hl, if_false, Bool.false_eq_true]
    split_ifs
    · cases hc : fs.contents fname with
      | none => exact ⟨_, _, rfl, by simp [to_counts]⟩
      | some data =>
        obtain ⟨g3, hg3⟩ := hblock (ifstream_reads data.length data) g1
        simp only [hg3, Option.map_some']
        exact ⟨_, _, rfl, by simp [to_counts]⟩
    · exact ⟨_, _, rfl, by simp [to_counts]⟩

theorem add_counts_some :
    ∀ (totals counts : List Int), totals.length ≤ counts.length →
      ∃ r, add_counts totals counts = some r ∧ r.length = totals.length := by
  intro totals
  induction totals with
  | nil => intro counts _; exact ⟨[], rfl, rfl⟩
  | cons t ts ih =>
    intro counts h
    cases counts with
    | nil => simp at h
    | cons c cs =>
      obtain ⟨r, hr, hlen⟩ := ih cs (by simpa using h)
      exact ⟨int_of_long (t + c) :: r, by simp [add_counts, hr], by simp [hlen]⟩

theorem process_files_loop_rows (L : Locale) (hL : mbrtowc_contract L)
    (hsh : mbrtowc_incomplete_short L) (fs : FileSystem) (flags : Finset String) :
    ∀ (names : List String) (table : List (List String)) (totals : List Int) (g : Globals),
      totals.length ≤ (counters_from_arguments flags g).1.length →
      ∃ (rows : List (List Int)) (totals1 : List Int) (g1 : Globals),
        process_files_loop L fs flags names table totals g
            = some (table ++ List.zipWith tabulate rows names, totals1, g1)
          ∧ rows.length = names.length := by
  intro names
  induction names with
  | nil =>
    intro table totals g _
    exact ⟨[], totals, g, by simp [process_files_loop], rfl⟩
  | cons fname rest ih =>
    intro table totals g h
    obtain ⟨counts, g1, hpf, hlen⟩ := process_file_total L hL hsh fs fname flags g
    obtain ⟨tot, htot, htlen⟩ := add_counts_some totals counts (by omega)
    have h1 : tot.length ≤ (counters_from_arguments flags g1).1.length := by
      rw [counters_from_arguments_fst_indep flags g1 g]; omega
    obtain ⟨rows, totals1, g2, hloop, hrows⟩ :=
      ih (table ++ [tabulate counts fname]) tot g1 h1
    refine ⟨counts :: rows, totals1, g2, ?_, by simp [hrows]⟩
    simp only [process_files_loop, hpf, htot, hloop, List.zipWith_cons_cons,
      List.append_assoc, List.singleton_append]

/-- C12, as the code has it: every file name gets a row, readable or not.
For a locale whose `mbrtowc` keeps to its C contract and reports an incomplete
sequence only on fewer than `sizeof(wchar_t)` bytes (so that every residual
fits the buffer of `process_stream` and the counting pass of every file has a
result) and a flag set with no
more flags than counters, `process_files` returns a table whose first rows
are, name by name, the counts of that call of `process_file` followed by the
name, one row for every name of the list whether the file opens or not, so
every readable file has its row; a totals row follows when there is more than
one name. -/
theorem process_files_one_row_per_name (L : Locale) (hL : mbrtowc_contract L)
    (hsh : mbrtowc_incomplete_short L)
    (fs : FileSystem) (flags : Finset String) (names : List String) (g : Globals)
    (hflags : flags.card ≤ (counters_from_arguments flags g).1.length) :
    ∃ (rows : List (List Int)) (table : List (List String)) (g1 : Globals),
      process_files L fs flags names g = some (table, g1)
        ∧ rows.length = names.length
        ∧ table.take names.length = List.zipWith tabulate rows names
        ∧ table.length = names.length + (if names.length > 1 then 1 else 0) := by
  obtain ⟨rows, totals1, g1, hloop, hrows⟩ :=
    process_files_loop_rows L hL hsh fs flags names [] (List.replicate flags.card 0) g
      (by simpa using hflags)
  have hz : (List.zipWith tabulate rows names).length = names.length := by
    simp [hrows]
  simp only [process_files, hloop, List.nil_append]
  by_cases hn : names.length > 1
  · refine ⟨rows, _, g1, by rw [if_pos hn], hrows, ?_, ?_⟩
    · rw [List.take_append_of_le_length (by omega), ← hz, List.take_length]
    · simp [hz, hn]
  · refine ⟨rows, _, g1, by rw [if_neg hn], hrows, ?_, ?_⟩
    · rw [← hz, List.take_length]
    · simp [hz, hn]

/-- Witness for C12 as the code has it: `-w` on the names `zz`, which does not
open, and `b`, in the sample single-byte locale. -/
theorem process_files_one_row_per_name_witness :
    mbrtowc_contract c_locale
    ∧ mbrtowc_incomplete_short c_locale
    ∧ ({"-w"} : Finset String).card
        ≤ (counters_from_arguments {"-w"} Globals.fresh).1.length
    ∧ ∃ (rows : List (List Int)) (table : List (List String)) (g1 : Globals),
        process_files c_locale (sample_fs [("b", [98])]) {"-w"} ["zz", "b"] Globals.fresh
            = some (table, g1)
          ∧ rows.length = (["zz", "b"] : List String).length
          ∧ table.take (["zz", "b"] : List String).length
              = List.zipWith tabulate rows ["zz", "b"]
          ∧ table.length = (["zz", "b"] : List String).length
              + (if (["zz", "b"] : List String).length > 1 then 1 else 0) :=
  ⟨c_locale_contract, c_locale_incomplete_short, by decide,
    process_files_one_row_per_name c_locale c_locale_contract c_locale_incomplete_short
      (sample_fs [("b", [98])]) {"-w"} ["zz", "b"] Globals.fresh (by decide)⟩

/-- C12 fails as stated: a file that cannot be opened still gets a row. With
`-w` on the names `zz` and `b` where only `b` exists (holding the letter b),
the table has a row for `zz` with the count 0, a row for `b` and the totals
row: two per-file rows for one readable file. -/
theorem unreadable_file_gets_a_row :
    (sample_fs [("b", [98])]).contents "zz" = none
    ∧ ((["zz", "b"] : List String).filter
        (fun n => ((sample_fs [("b", [98])]).contents n).isSome)).length = 1
    ∧ (process_files c_locale (sample_fs [("b", [98])]) {"-w"} ["zz", "b"]
        Globals.fresh).map Prod.fst
      = some [["0", "zz"], ["1", "b"], ["1", "total"]] := by
  decide

/-- C19: with one counter named by both of its flags the totals loop reads
past the end of the count vector. For the flags `-l` and `--lines` the totals
vector has 2 entries, the count vector that `process_file` returns has 1, so
`counts[1]` is read out of range: the run of `process_files` is undefined. -/
theorem totals_index_out_of_range :
    ({"-l", "--lines"} : Finset String).card = 2
    ∧ (process_file c_locale (sample_fs [("a", [104, 105, 10])]) "a" {"-l", "--lines"}
        Globals.fresh).map (fun r => r.1) = some [1]
    ∧ add_counts (List.replicate ({"-l", "--lines"} : Finset String).card 0) [1] = none
    ∧ process_files c_locale (sample_fs [("a", [104, 105, 10])]) {"-l", "--lines"} ["a"]
        Globals.fresh = none := by
  decide

/-! ## Inputs decoded byte by byte -/

theorem block_units_loop_single_bytes (L : Locale) (eof : Bool) :
    ∀ (fuel : Nat) (ps : L.MbState) (cp : List Byte), cp.length ≤ fuel →
      (∀ b ∈ cp, is_basic b = true ∨
        ∀ (ps : L.MbState) (rest : List Byte),
          (L.mbrtowc ps (b :: rest)).1 = 1 ∧ (L.mbrtowc ps (b :: rest)).2.1 = (b : Int)) →
      block_units_loop L eof fuel ps cp
        = some (cp.map single_byte_unit, 0) := by
  intro fuel
  induction fuel with
  | zero =>
    intro ps cp h _
    cases cp with
    | nil => rfl
    | cons c cs => simp at h
  | succ fuel ih =>
    intro ps cp h hall
    cases cp with
    | nil => rfl
    | cons c cs =>
      have hcs : cs.length ≤ fuel := by simpa using h
      have hrest : ∀ b ∈ cs, is_basic b = true ∨
          ∀ (ps : L.MbState) (rest : List Byte),
            (L.mbrtowc ps (b :: rest)).1 = 1 ∧ (L.mbrtowc ps (b :: rest)).2.1 = (b : Int) :=
        fun b hb => hall b (List.mem_cons_of_mem _ hb)
      simp only [block_units_loop]
      by_cases hb : is_basic c = true
      · simp [hb, ih ps cs hcs hrest, single_byte_unit]
      · rcases hall c (List.mem_cons_self _ _) with h1 | h1
        · exact absurd h1 hb
        · obtain ⟨hr, hwc⟩ := h1 ps cs
          have e1 : ¬ (1 : Nat) = size_t_neg1 := by decide
          have e2 : ¬ (1 : Nat) = size_t_neg2 := by decide
          simp [hb, hr, hwc, e1, e2, ih _ cs hcs hrest, single_byte_unit]

theorem process_stream_single_bytes (L : Locale) :
    ∀ (is : List (List Byte)) (g : Globals), (∀ c ∈ is, c ≠ []) →
      (∀ b ∈ is.flatten, is_basic b = true ∨
        ∀ (ps : L.MbState) (rest : List Byte),
          (L.mbrtowc ps (b :: rest)).1 = 1 ∧ (L.mbrtowc ps (b :: rest)).2.1 = (b : Int)) →
      process_stream (process_block L) is [] g
        = some (feed L g (is.flatten.map single_byte_unit)) := by
  intro is
  induction is with
  | nil => intro g _ _; rfl
  | cons chunk rest ih =>
    intro g hne hall
    have hchunk : chunk ≠ [] := hne chunk (List.mem_cons_self _ _)
    have hrest : ∀ c ∈ rest, c ≠ [] := fun c hc => hne c (List.mem_cons_of_mem _ hc)
    have hc : ∀ b ∈ chunk, is_basic b = true ∨
        ∀ (ps : L.MbState) (rest : List Byte),
          (L.mbrtowc ps (b :: rest)).1 = 1 ∧ (L.mbrtowc ps (b :: rest)).2.1 = (b : Int) :=
      fun b hb => hall b (by simp [hb])
    have hr : ∀ b ∈ rest.flatten, is_basic b = true ∨
        ∀ (ps : L.MbState) (rest : List Byte),
          (L.mbrtowc ps (b :: rest)).1 = 1 ∧ (L.mbrtowc ps (b :: rest)).2.1 = (b : Int) :=
      fun b hb => hall b (by simp only [List.flatten_cons, List.mem_append]; exact Or.inr hb)
    have h1 : ¬ (chunk :: rest).flatten = [] := by simp [hchunk]
    have h2 : ¬ ([] ++ chunk).length < 1 := by
      have := List.length_pos.2 hchunk
      simp only [List.nil_append]; omega
    have hpb : process_block L ([] ++ chunk) (decide (rest.flatten = [])) g
        = some (0, feed L g (chunk.map single_byte_unit)) := by
      rw [process_block_eq_feed, block_units, List.nil_append,
        block_units_loop_single_bytes L _ chunk.length L.ps0 chunk le_rfl hc]
      rfl
    have h3 : ¬ sizeof_wchar_t < ([] : List Byte).length := by decide
    simp only [process_stream, h1, h2, h3, if_false, hpb, Nat.sub_zero, List.drop_length]
    rw [ih _ hrest hr, List.flatten_cons, List.map_append, feed_append]

theorem feed_single_bytes_counts (L : Locale) :
    ∀ (cp : List Byte) (g : Globals),
      g.byte_counter.active = true → g.char_counter.active = true →
      (feed L g (cp.map single_byte_unit)).byte_counter.count
          = g.byte_counter.count + (cp.length : Int)
        ∧ (feed L g (cp.map single_byte_unit)).char_counter.count
          = g.char_counter.count + (cp.length : Int) := by
  intro cp
  induction cp with
  | nil => intro g _ _; simp [feed]
  | cons b bs ih =>
    intro g hb hc
    have hstep : feed L g ((b :: bs).map single_byte_unit)
        = feed L (process_wchar L g (b : Int) 1 false) (bs.map single_byte_unit) := rfl
    have hb1 : (process_wchar L g (b : Int) 1 false).byte_counter
        = { g.byte_counter with count := g.byte_counter.count + 1 } := by
      rw [process_wchar_byte_counter]; simp [hb, byte_counter_t.process_wchar]
    have hc1 : (process_wchar L g (b : Int) 1 false).char_counter
        = { g.char_counter with count := g.char_counter.count + 1 } := by
      rw [process_wchar_char_counter]
      by_cases hm : L.MB_CUR_MAX = 1 <;> simp [hc, hm, char_counter_t.process_wchar]
    obtain ⟨i1, i2⟩ := ih (process_wchar L g (b : Int) 1 false)
      (by rw [hb1]; exact hb) (by rw [hc1]; exact hc)
    rw [hstep, i1, i2, hb1, hc1]
    simp only [List.length_cons, Nat.cast_add, Nat.cast_one]
    constructor <;> ring

/-- C14: on an input of basic characters the character count is the byte
count. For every locale, single-byte or multi-byte, a block all of whose bytes
are accepted by `is_basic`, decoded by `process_block` with the byte counter
and the character counter active, is consumed whole (residual 0) and adds its
length to both counters; after the reset of `counters_from_arguments` both
therefore end equal to the input length. -/
theorem basic_input_char_count_is_byte_count (L : Locale) (cp : List Byte) (eof : Bool)
    (g : Globals)
    (hbasic : ∀ b ∈ cp, is_basic b = true)
    (hbyte : g.byte_counter.active = true) (hchar : g.char_counter.active = true) :
    (∃ g1, process_block L cp eof g = some (0, g1)
      ∧ g1.byte_counter.count = g.byte_counter.count + (cp.length : Int)
      ∧ g1.char_counter.count = g.char_counter.count + (cp.length : Int))
    ∧ (∃ g1, process_block L cp eof (counters_from_arguments {"-m", "-c"} g).2 = some (0, g1)
      ∧ g1.char_counter.count = g1.byte_counter.count
      ∧ g1.byte_counter.count = (cp.length : Int)) := by
  have hunits : block_units_loop L eof cp.length L.ps0 cp
      = some (cp.map single_byte_unit, 0) :=
    block_units_loop_single_bytes L eof cp.length L.ps0 cp le_rfl
      (fun b hb => Or.inl (hbasic b hb))
  have hpb : ∀ g0 : Globals, process_block L cp eof g0
      = some (0, feed L g0 (cp.map single_byte_unit)) := by
    intro g0
    rw [process_block_eq_feed, block_units, hunits]; rfl
  constructor
  · obtain ⟨h1, h2⟩ := feed_single_bytes_counts L cp g hbyte hchar
    exact ⟨_, hpb g, h1, h2⟩
  · have hr := counters_from_arguments_reset {"-m", "-c"} g
    have hfst : (counters_from_arguments {"-m", "-c"} g).1
        = [counter_id.char_counter, counter_id.byte_counter] := by
      rw [counters_from_arguments_fst _ g (by decide)]
      decide
    have hcc := hr counter_id.char_counter (by rw [hfst]; simp)
    have hbc := hr counter_id.byte_counter (by rw [hfst]; simp)
    simp only [Globals.deref] at hcc hbc
    obtain ⟨h1, h2⟩ := feed_single_bytes_counts L cp (counters_from_arguments {"-m", "-c"} g).2
      hbc.2 hcc.2
    refine ⟨_, hpb _, ?_, ?_⟩
    · rw [h1, h2, hcc.1, hbc.1]
    · rw [h1, hbc.1]; simp


theorem feed_hello_world (L : Locale)
    (hletters : ∀ c ∈ ([104, 101, 108, 111, 119, 114, 100] : List WChar),
      L.iswprint c = true ∧ L.iswspace c = false) :
    to_counts (counters_from_arguments ∅ Globals.fresh).1
      (feed L (counters_from_arguments ∅ Globals.fresh).2
        (([104, 101, 108, 108, 111, 10, 119, 111, 114, 108, 100, 10] : List Byte).map
          single_byte_unit)) = [2, 2, 12] := by
  have h104 := hletters 104 (by simp)
  have h101 := hletters 101 (by simp)
  have h108 := hletters 108 (by simp)
  have h111 := hletters 111 (by simp)
  have h119 := hletters 119 (by simp)
  have h114 := hletters 114 (by simp)
  have h100 := hletters 100 (by simp)
  simp [counters_from_arguments_empty, to_counts, feed, single_byte_unit, process_wchar,
    Globals.fresh, Globals.deref, counter_t.reset, word_counter_t.reset,
    byte_counter_t.process_wchar, line_counter_t.process_wchar, word_counter_t.process_wchar,
    is_word_sep, h104, h101, h108, h111, h119, h114, h100, int_of_long]

theorem is_basic_or_line_feed_hello_world (L : Locale)
    (hnl : ∀ (ps : L.MbState) (rest : List Byte),
      (L.mbrtowc ps (10 :: rest)).1 = 1 ∧ (L.mbrtowc ps (10 :: rest)).2.1 = 10) :
    ∀ b ∈ ([104, 101, 108, 108, 111, 10, 119, 111, 114, 108, 100, 10] : List Byte),
      is_basic b = true ∨
        ∀ (ps : L.MbState) (rest : List Byte),
          (L.mbrtowc ps (b :: rest)).1 = 1 ∧ (L.mbrtowc ps (b :: rest)).2.1 = (b : Int) := by
  intro b hb
  by_cases h10 : b = 10
  · subst h10
    exact Or.inr hnl
  · left
    simp only [List.mem_cons, List.mem_singleton, List.not_mem_nil, or_false] at hb
    rcases hb with h | h | h | h | h | h | h | h | h | h | h | h <;>
      first
        | exact absurd h h10
        | (subst h; decide)

/-- C13: the default counts of the two scenarios. In every locale in which the
byte 0x0A decodes to the line feed and the letters of the input are printable
and no white space, the standard-input path with an empty flag set
(`counters_from_arguments`, `process_stream` with `process_block`,
`to_counts`), started from the initial state of the counters, yields the count
vector 2, 2, 12 for the twelve bytes of hello, line feed, world, line feed,
however the input is cut into non-empty chunks, and 0, 0, 0 for the empty
input. -/
theorem default_counts_of_the_scenarios (L : Locale) (is : List (List Byte))
    (hnl : ∀ (ps : L.MbState) (rest : List Byte),
      (L.mbrtowc ps (10 :: rest)).1 = 1 ∧ (L.mbrtowc ps (10 :: rest)).2.1 = 10)
    (hletters : ∀ c ∈ ([104, 101, 108, 111, 119, 114, 100] : List WChar),
      L.iswprint c = true ∧ L.iswspace c = false)
    (hne : ∀ c ∈ is, c ≠ [])
    (his : is.flatten = [104, 101, 108, 108, 111, 10, 119, 111, 114, 108, 100, 10]) :
    (process_stream (process_block L) is [] (counters_from_arguments ∅ Globals.fresh).2).map
        (to_counts (counters_from_arguments ∅ Globals.fresh).1) = some [2, 2, 12]
    ∧ (process_stdin L is ∅ Globals.fresh).map Prod.fst = some [["2", "2", "12"]]
    ∧ (process_stream (process_block L) [] [] (counters_from_arguments ∅ Globals.fresh).2).map
        (to_counts (counters_from_arguments ∅ Globals.fresh).1) = some [0, 0, 0]
    ∧ (process_stdin L [] ∅ Globals.fresh).map Prod.fst = some [["0", "0", "0"]] := by
  have hstream := process_stream_single_bytes L is
    (counters_from_arguments ∅ Globals.fresh).2 hne
    (by rw [his]; exact is_basic_or_line_feed_hello_world L hnl)
  rw [his] at hstream
  have hcounts := feed_hello_world L hletters
  refine ⟨?_, ?_, ?_, ?_⟩
  · rw [hstream, Option.map_some', hcounts]
  · simp only [process_stdin, hstream, Option.map_some', hcounts]
    decide
  · simp only [process_stream, Option.map_some']
    decide
  · simp only [process_stdin, process_stream, Option.map_some']
    decide

/-- Witness for C13: the two scenarios in the sample single-byte locale, the
first input cut after its fourth byte. -/
theorem default_counts_of_the_scenarios_witness :
    (∀ (ps : c_locale.MbState) (rest : List Byte),
      (c_locale.mbrtowc ps (10 :: rest)).1 = 1 ∧ (c_locale.mbrtowc ps (10 :: rest)).2.1 = 10)
    ∧ (∀ c ∈ ([104, 101, 108, 111, 119, 114, 100] : List WChar),
      c_locale.iswprint c = true ∧ c_locale.iswspace c = false)
    ∧ (∀ c ∈ ([[104, 101, 108, 108], [111, 10, 119, 111, 114, 108, 100, 10]] :
        List (List Byte)), c ≠ [])
    ∧ ([[104, 101, 108, 108], [111, 10, 119, 111, 114, 108, 100, 10]] :
        List (List Byte)).flatten = [104, 101, 108, 108, 111, 10, 119, 111, 114, 108, 100, 10]
    ∧ ((process_stream (process_block c_locale)
          [[104, 101, 108, 108], [111, 10, 119, 111, 114, 108, 100, 10]] []
          (counters_from_arguments ∅ Globals.fresh).2).map
          (to_counts (counters_from_arguments ∅ Globals.fresh).1) = some [2, 2, 12]
      ∧ (process_stdin c_locale [[104, 101, 108, 108], [111, 10, 119, 111, 114, 108, 100, 10]]
          ∅ Globals.fresh).map Prod.fst = some [["2", "2", "12"]]
      ∧ (process_stream (process_block c_locale) [] []
          (counters_from_arguments ∅ Globals.fresh).2).map
          (to_counts (counters_from_arguments ∅ Globals.fresh).1) = some [0, 0, 0]
      ∧ (process_stdin c_locale [] ∅ Globals.fresh).map Prod.fst = some [["0", "0", "0"]]) :=
  ⟨fun _ _ => ⟨rfl, rfl⟩, by decide, by decide, by decide,
    default_counts_of_the_scenarios c_locale
      [[104, 101, 108, 108], [111, 10, 119, 111, 114, 108, 100, 10]]
      (fun _ _ => ⟨rfl, rfl⟩) (by decide) (by decide) (by decide)⟩

/-- Witness for C14: the four basic bytes h, i, space, exclamation mark in the
sample multi-byte locale. -/
theorem basic_input_char_count_is_byte_count_witness :
    (∀ b ∈ ([104, 105, 32, 33] : List Byte), is_basic b = true)
    ∧ (counters_from_arguments {"-m", "-c"} Globals.fresh).2.byte_counter.active = true
    ∧ (counters_from_arguments {"-m", "-c"} Globals.fresh).2.char_counter.active = true
    ∧ ((∃ g1, process_block utf8_locale [104, 105, 32, 33] true
            (counters_from_arguments {"-m", "-c"} Globals.fresh).2 = some (0, g1)
        ∧ g1.byte_counter.count
            = (counters_from_arguments {"-m", "-c"} Globals.fresh).2.byte_counter.count
              + (([104, 105, 32, 33] : List Byte).length : Int)
        ∧ g1.char_counter.count
            = (counters_from_arguments {"-m", "-c"} Globals.fresh).2.char_counter.count
              + (([104, 105, 32, 33] : List Byte).length : Int))
      ∧ (∃ g1, process_block utf8_locale [104, 105, 32, 33] true
            (counters_from_arguments {"-m", "-c"}
              (counters_from_arguments {"-m", "-c"} Globals.fresh).2).2 = some (0, g1)
        ∧ g1.char_counter.count = g1.byte_counter.count
        ∧ g1.byte_counter.count = (([104, 105, 32, 33] : List Byte).length : Int))) :=
  ⟨by decide, by decide, by decide,
    basic_input_char_count_is_byte_count utf8_locale [104, 105, 32, 33] true
      (counters_from_arguments {"-m", "-c"} Globals.fresh).2 (by decide) (by decide)
      (by decide)⟩

/-! ## The word counter against its specification -/

theorem word_process_wchar_spec (L : Locale) (c : word_counter_t) (u : decoded_unit) :
    c.process_wchar L u.wc u.num_bytes u.error
      = { c with in_word := inside_after L c.in_word u,
                 count := c.count + (if starts_word L c.in_word u = true then 1 else 0) } := by
  rcases c with ⟨⟨active, count⟩, in_word⟩
  rcases u with ⟨wc, n, error⟩
  cases error <;> cases in_word <;> cases hs : is_word_sep L wc <;>
    cases hp : L.iswprint wc <;>
    simp [word_counter_t.process_wchar, inside_after, starts_word, hs, hp]

theorem word_feed_spec (L : Locale) :
    ∀ (us : List decoded_unit) (c : word_counter_t),
      (word_feed L c us).count = c.count + (words_started L c.in_word us : Nat) := by
  intro us
  induction us with
  | nil => intro c; simp [word_feed, words_started]
  | cons u us ih =>
    intro c
    have hstep : word_feed L c (u :: us)
        = word_feed L (c.process_wchar L u.wc u.num_bytes u.error) us := rfl
    rw [hstep, ih, word_process_wchar_spec]
    simp only [words_started, Nat.cast_add]
    split_ifs <;> simp only [Nat.cast_one, Nat.cast_zero] <;> ring

theorem words_started_runs (L : Locale) :
    ∀ (us : List decoded_unit),
      (∀ u ∈ us, u.error = false ∧ (is_word_sep L u.wc = true ∨ L.iswprint u.wc = true)) →
      words_started L false us
          = ((us.splitOnP (fun u => is_word_sep L u.wc)).filter (fun r => !r.isEmpty)).length
        ∧ words_started L true us
          = ((us.splitOnP (fun u => is_word_sep L u.wc)).tail.filter
              (fun r => !r.isEmpty)).length := by
  intro us
  induction us with
  | nil => intro _; simp [words_started]
  | cons u us ih =>
    intro hall
    obtain ⟨he, hcls⟩ := hall u (List.mem_cons_self _ _)
    obtain ⟨ih1, ih2⟩ := ih (fun v hv => hall v (List.mem_cons_of_mem _ hv))
    have hS := List.splitOnP_ne_nil (fun u => is_word_sep L u.wc) us
    rw [List.splitOnP_cons]
    by_cases hsep : is_word_sep L u.wc = true
    · simp only [words_started, starts_word, inside_after, he, hsep, Bool.not_true,
        Bool.and_false, Bool.false_and, Bool.false_eq_true, if_false, Bool.not_false,
        Bool.and_self, if_true, Nat.zero_add, List.tail_cons, ih1]
      simp
    · have hsep1 : is_word_sep L u.wc = false := by simpa using hsep
      have hp : L.iswprint u.wc = true := by
        rcases hcls with h | h
        · exact absurd h hsep
        · exact h
      cases hS1 : List.splitOnP (fun u => is_word_sep L u.wc) us with
      | nil => exact absurd hS1 hS
      | cons h t =>
        rw [hS1] at ih2
        simp only [List.tail_cons] at ih2
        simp only [words_started, starts_word, inside_after, he, hsep1, hp, Bool.not_false,
          Bool.and_self, Bool.not_true, Bool.and_false, Bool.false_eq_true, if_false,
          if_true, ih2, List.modifyHead_cons, List.tail_cons, Nat.zero_add]
        simp [List.filter_cons]
        omega

/-- C16: what the word counter computes. From a fresh word counter the final
count is the number of units that start a word in the words of the
specification (no error, printable, no white space, the counter not inside a
word, where inside-a-word turns true at such a unit, false at a white-space
unit that is no error, and stays as it is at every other unit); the same holds
from any state of the counter, on top of the count it starts with. For a
sequence of units that are no error and each printable or white space, this
number is the number of maximal runs of units that are no white space. -/
theorem word_count_is_words_started (L : Locale) (c : word_counter_t)
    (us vs : List decoded_unit)
    (hvs : ∀ u ∈ vs, u.error = false ∧ (is_word_sep L u.wc = true ∨ L.iswprint u.wc = true)) :
    (word_feed L {} us).count = (words_started L false us : Nat)
    ∧ (word_feed L c us).count = c.count + (words_started L c.in_word us : Nat)
    ∧ (word_feed L c us).in_word = us.foldl (inside_after L) c.in_word
    ∧ (word_feed L {} vs).count = (maximal_runs L vs : Nat) := by
  refine ⟨?_, word_feed_spec L us c, ?_, ?_⟩
  · rw [word_feed_spec]; simp
  · clear hvs
    induction us generalizing c with
    | nil => rfl
    | cons u us ih =>
      have hstep : word_feed L c (u :: us)
          = word_feed L (c.process_wchar L u.wc u.num_bytes u.error) us := rfl
      rw [hstep, ih, word_process_wchar_spec]
      rfl
  · rw [word_feed_spec, maximal_runs, ← (words_started_runs L vs hvs).1]; simp

/-- Witness for C16: space, a, b, an error unit, space, space, c in the sample
single-byte locale: two words, two maximal runs. -/
theorem word_count_is_words_started_witness :
    (∀ u ∈ [decoded_unit.mk 32 1 false, decoded_unit.mk 97 1 false, decoded_unit.mk 98 1 false,
          decoded_unit.mk 32 1 false, decoded_unit.mk 32 1 false, decoded_unit.mk 99 1 false],
        u.error = false ∧ (is_word_sep c_locale u.wc = true ∨ c_locale.iswprint u.wc = true))
    ∧ ((word_feed c_locale {} [decoded_unit.mk 32 1 false, decoded_unit.mk 97 1 false,
          decoded_unit.mk 98 1 false, decoded_unit.mk 0 1 true, decoded_unit.mk 32 1 false,
          decoded_unit.mk 32 1 false, decoded_unit.mk 99 1 false]).count
        = (words_started c_locale false [decoded_unit.mk 32 1 false, decoded_unit.mk 97 1 false,
          decoded_unit.mk 98 1 false, decoded_unit.mk 0 1 true, decoded_unit.mk 32 1 false,
          decoded_unit.mk 32 1 false, decoded_unit.mk 99 1 false] : Nat)
      ∧ (word_feed c_locale {} [decoded_unit.mk 32 1 false, decoded_unit.mk 97 1 false,
          decoded_unit.mk 98 1 false, decoded_unit.mk 0 1 true, decoded_unit.mk 32 1 false,
          decoded_unit.mk 32 1 false, decoded_unit.mk 99 1 false]).count
        = ({} : word_counter_t).count
          + (words_started c_locale ({} : word_counter_t).in_word
              [decoded_unit.mk 32 1 false, decoded_unit.mk 97 1 false,
              decoded_unit.mk 98 1 false, decoded_unit.mk 0 1 true, decoded_unit.mk 32 1 false,
              decoded_unit.mk 32 1 false, decoded_unit.mk 99 1 false] : Nat)
      ∧ (word_feed c_locale {} [decoded_unit.mk 32 1 false, decoded_unit.mk 97 1 false,
          decoded_unit.mk 98 1 false, decoded_unit.mk 0 1 true, decoded_unit.mk 32 1 false,
          decoded_unit.mk 32 1 false, decoded_unit.mk 99 1 false]).in_word
        = [decoded_unit.mk 32 1 false, decoded_unit.mk 97 1 false,
            decoded_unit.mk 98 1 false, decoded_unit.mk 0 1 true, decoded_unit.mk 32 1 false,
            decoded_unit.mk 32 1 false, decoded_unit.mk 99 1 false].foldl
              (inside_after c_locale) ({} : word_counter_t).in_word
      ∧ (word_feed c_locale {} [decoded_unit.mk 32 1 false, decoded_unit.mk 97 1 false,
          decoded_unit.mk 98 1 false, decoded_unit.mk 32 1 false, decoded_unit.mk 32 1 false,
          decoded_unit.mk 99 1 false]).count
        = (maximal_runs c_locale [decoded_unit.mk 32 1 false, decoded_unit.mk 97 1 false,
          decoded_unit.mk 98 1 false, decoded_unit.mk 32 1 false, decoded_unit.mk 32 1 false,
          decoded_unit.mk 99 1 false] : Nat))
    ∧ maximal_runs c_locale [decoded_unit.mk 32 1 false, decoded_unit.mk 97 1 false,
        decoded_unit.mk 98 1 false, decoded_unit.mk 32 1 false, decoded_unit.mk 32 1 false,
        decoded_unit.mk 99 1 false] = 2 :=
  ⟨by decide,
    word_count_is_words_started c_locale {}
      [decoded_unit.mk 32 1 false, decoded_unit.mk 97 1 false, decoded_unit.mk 98 1 false,
        decoded_unit.mk 0 1 true, decoded_unit.mk 32 1 false, decoded_unit.mk 32 1 false,
        decoded_unit.mk 99 1 false]
      [decoded_unit.mk 32 1 false, decoded_unit.mk 97 1 false, decoded_unit.mk 98 1 false,
        decoded_unit.mk 32 1 false, decoded_unit.mk 32 1 false, decoded_unit.mk 99 1 false]
      (by decide),
    by decide⟩

/-! ## Line feeds by bytes and by decoding -/

theorem count_line_feed_cons (b : Nat) (s : List Nat) :
    List.count 10 (b :: s) = (if b = 10 then 1 else 0) + List.count 10 s := by
  rw [List.count_cons]
  by_cases h : b = 10 <;> simp [h, Nat.add_comm]

theorem count_line_feed_high (b : Nat) (s : List Nat) (h : 128 ≤ b) :
    List.count 10 (b :: s) = List.count 10 s := by
  rw [count_line_feed_cons, if_neg (by omega), Nat.zero_add]

theorem c_locale_line_feed_safe : mbrtowc_line_feed_safe c_locale := by
  intro ps
  intro (s : List Nat)
  have e0 : ¬ (0 : Nat) = size_t_neg2 := by decide
  have e1 : ¬ (1 : Nat) = size_t_neg2 := by decide
  have e2 : ¬ size_t_neg1 = size_t_neg2 := by decide
  have e3 : ¬ size_t_neg1 = 0 := by decide
  have e4 : ¬ size_t_neg2 = 0 := by decide
  rcases s with _ | ⟨b, bs⟩
  · exact ⟨fun _ => rfl, fun _ => rfl, fun h => absurd h e4, fun _ h => absurd rfl h⟩
  · simp only [c_locale, line_feed_safe_result]
    by_cases hb0 : b = 0
    · subst hb0
      simp only [if_true]
      exact ⟨fun h => absurd h e0, fun h => absurd h.symm e3, fun _ => by simp,
        fun _ _ h => absurd rfl h⟩
    · by_cases hb : b < 128
      · simp only [hb0, hb, if_true, if_false]
        refine ⟨fun h => absurd h e1, fun h => absurd h (by decide), fun h => absurd h (by decide),
          fun _ _ _ => ?_⟩
        rw [List.take_succ_cons, List.take_zero, count_line_feed_cons]
        by_cases h10 : b = 10
        · subst h10; rfl
        · have : ¬ ((b : Int) = 10) := by exact_mod_cast h10
          simp [this, h10]
      · simp only [hb0, hb, if_false]
        refine ⟨fun h => absurd h e2, fun _ => ?_, fun h => absurd h e3,
          fun h _ _ => absurd rfl h⟩
        rw [List.take_succ_cons, List.take_zero, count_line_feed_high b [] (by omega)]
        rfl

theorem process_stream_eq_trace (f : List Byte → Bool → Globals → Option (Nat × Globals)) :
    ∀ (is : List (List Byte)) (buf : List Byte) (g : Globals),
      process_stream f is buf g
        = (process_stream_trace f is buf g).map (fun t => t.2.2) := by
  intro is
  induction is with
  | nil => intro buf g; rfl
  | cons chunk rest ih =>
    intro buf g
    simp only [process_stream, process_stream_trace]
    split_ifs
    · rfl
    · rfl
    · rfl
    · cases f (buf ++ chunk) (decide (rest.flatten = [])) g with
      | none => rfl
      | some r =>
        simp only [ih, Option.map_map]
        rfl

theorem process_stream_trace_bounds (L : Locale) (hL : mbrtowc_contract L)
    (hsh : mbrtowc_incomplete_short L) :
    ∀ (is : List (List Byte)) (buf : List Byte) (g : Globals),
      (∀ c ∈ is, c ≠ []) → (∀ c ∈ is, c.length ≤ block_read) →
      buf.length ≤ sizeof_wchar_t → (is = [] → buf = []) →
      ∃ calls g1, process_stream_trace (process_block L) is buf g = some (calls, [], g1)
        ∧ (∀ p ∈ calls, p.1.length ≤ block_read + sizeof_wchar_t ∧ p.2 ≤ sizeof_wchar_t)
        ∧ (calls.map (fun p => p.1.length - p.2)).sum = buf.length + is.flatten.length := by
  intro is
  induction is with
  | nil =>
    intro buf g _ _ _ hb
    refine ⟨[], g, ?_, by simp, by simp [hb rfl]⟩
    rw [hb rfl]; rfl
  | cons chunk rest ih =>
    intro buf g hne hsz hbuf _
    have hchunk : chunk ≠ [] := hne chunk (List.mem_cons_self _ _)
    have hrest : ∀ c ∈ rest, c ≠ [] := fun c hc => hne c (List.mem_cons_of_mem _ hc)
    have hrsz : ∀ c ∈ rest, c.length ≤ block_read :=
      fun c hc => hsz c (List.mem_cons_of_mem _ hc)
    have hcsz : chunk.length ≤ block_read := hsz chunk (List.mem_cons_self _ _)
    obtain ⟨us, k, he, _, hsum, hk⟩ :=
      block_units_loop_total L hL (decide (rest.flatten = [])) (buf ++ chunk).length L.ps0
        (buf ++ chunk) le_rfl
    have hshort := block_units_loop_residual_short L hsh _ _ _ _ us k he
    have hpb : process_block L (buf ++ chunk) (decide (rest.flatten = [])) g
        = some (k, feed L g us) := by
      rw [process_block_eq_feed, block_units, he]; rfl
    have hkle : k ≤ (buf ++ chunk).length := by omega
    have hd : (List.drop ((buf ++ chunk).length - k) (buf ++ chunk)).length = k := by
      rw [List.length_drop]; omega
    have hbuf1 : rest = [] → List.drop ((buf ++ chunk).length - k) (buf ++ chunk) = [] := by
      intro hr
      have : k = 0 := hk (by simp [hr])
      simp [this]
    obtain ⟨calls, g1, htr, hb, hs⟩ := ih (List.drop ((buf ++ chunk).length - k) (buf ++ chunk))
      (feed L g us) hrest hrsz (by rw [hd]; omega) hbuf1
    have h1 : ¬ (chunk :: rest).flatten = [] := by simp [hchunk]
    have h2 : ¬ (buf ++ chunk).length < 1 := by
      have := List.length_pos.2 hchunk
      simp only [List.length_append]; omega
    have h3 : ¬ sizeof_wchar_t < buf.length := by omega
    refine ⟨(buf ++ chunk, k) :: calls, g1, ?_, ?_, ?_⟩
    · simp only [process_stream_trace, h1, h2, h3, if_false, hpb, htr, Option.map_some']
    · intro p hp
      rcases List.mem_cons.1 hp with rfl | hp
      · constructor
        · simp only [List.length_append]; omega
        · omega
      · exact hb p hp
    · rw [hd] at hs
      simp only [List.map_cons, List.sum_cons, hs, List.flatten_cons, List.length_append]
      simp only [List.length_append] at hkle
      omega

/-- C18: the residual fits the slack of the buffer and none is left at the
end. For a locale whose `mbrtowc` keeps to its C contract and reports an
incomplete sequence only on fewer than `sizeof(wchar_t) = 4` bytes, every call
of `process_block` returns a residual of at most 4 bytes (0 at end of input);
hence in `process_stream` over non-empty reads of at most `block_read` bytes
every block handed to `process_block`, residual and new read together, has at
most `block_read + 4` bytes, the capacity of the buffer, and every residual is
at most 4; when the loop is left no byte is kept in the buffer, and the bytes
consumed by the calls add up to the whole input. -/
theorem residual_fits_the_buffer (L : Locale) (hL : mbrtowc_contract L)
    (hsh : mbrtowc_incomplete_short L) (cp : List Byte) (eof : Bool) (g : Globals)
    (is : List (List Byte))
    (hne : ∀ c ∈ is, c ≠ []) (hsz : ∀ c ∈ is, c.length ≤ block_read) :
    (∃ k g1, process_block L cp eof g = some (k, g1)
      ∧ k ≤ sizeof_wchar_t ∧ (eof = true → k = 0))
    ∧ (∃ calls g1, process_stream_trace (process_block L) is [] g = some (calls, [], g1)
      ∧ process_stream (process_block L) is [] g = some g1
      ∧ (∀ p ∈ calls, p.1.length ≤ block_read + sizeof_wchar_t ∧ p.2 ≤ sizeof_wchar_t)
      ∧ (calls.map (fun p => p.1.length - p.2)).sum = is.flatten.length) := by
  constructor
  · obtain ⟨us, k, he, _, _, hk⟩ :=
      block_units_loop_total L hL eof cp.length L.ps0 cp le_rfl
    have hshort := block_units_loop_residual_short L hsh _ _ _ _ us k he
    refine ⟨k, feed L g us, ?_, by omega, hk⟩
    rw [process_block_eq_feed, block_units, he]; rfl
  · obtain ⟨calls, g1, htr, hb, hs⟩ :=
      process_stream_trace_bounds L hL hsh is [] g hne hsz (by decide) (fun _ => rfl)
    refine ⟨calls, g1, htr, ?_, hb, by simpa using hs⟩
    rw [process_stream_eq_trace, htr]; rfl

/-- Witness for C18: the letter h, a euro sign and a line feed in the sample
UTF-8 locale, read in two chunks that cut the euro sign. -/
theorem residual_fits_the_buffer_witness :
    mbrtowc_contract utf8_locale ∧ mbrtowc_incomplete_short utf8_locale
    ∧ (∀ c ∈ ([[104, 226, 130], [172, 10]] : List (List Byte)), c ≠ [])
    ∧ (∀ c ∈ ([[104, 226, 130], [172, 10]] : List (List Byte)), c.length ≤ block_read)
    ∧ ((∃ k g1, process_block utf8_locale [104, 226, 130] false
            (counters_from_arguments ∅ Globals.fresh).2 = some (k, g1)
          ∧ k ≤ sizeof_wchar_t ∧ (false = true → k = 0))
      ∧ (∃ calls g1, process_stream_trace (process_block utf8_locale)
            [[104, 226, 130], [172, 10]] [] (counters_from_arguments ∅ Globals.fresh).2
              = some (calls, [], g1)
          ∧ process_stream (process_block utf8_locale) [[104, 226, 130], [172, 10]] []
              (counters_from_arguments ∅ Globals.fresh).2 = some g1
          ∧ (∀ p ∈ calls, p.1.length ≤ block_read + sizeof_wchar_t ∧ p.2 ≤ sizeof_wchar_t)
          ∧ (calls.map (fun p => p.1.length - p.2)).sum
              = ([[104, 226, 130], [172, 10]] : List (List Byte)).flatten.length))
    ∧ (process_stream_trace (process_block utf8_locale) [[104, 226, 130], [172, 10]] []
        (counters_from_arguments ∅ Globals.fresh).2).map (fun t => (t.1, t.2.1))
        = some ([([104, 226, 130], 2), ([226, 130, 172, 10], 0)], []) :=
  ⟨utf8_locale_contract, utf8_locale_incomplete_short, by decide, by decide,
    residual_fits_the_buffer utf8_locale utf8_locale_contract utf8_locale_incomplete_short
      [104, 226, 130] false (counters_from_arguments ∅ Globals.fresh).2
      [[104, 226, 130], [172, 10]] (by decide) (by decide),
    by decide⟩

/-! ## What is printed -/

theorem print_table_single (x : String) (b : Bool) : print_table [[x]] b = x ++ "\n" := by
  simp [print_table]

theorem setw_succ (x : String) : setw (x.utf8ByteSize + 1) x = " " ++ x := by
  simp only [setw, Nat.add_sub_cancel_left, List.replicate]

theorem print_table_labelled (x name : String) :
    print_table [[x, name]] true = " " ++ x ++ " " ++ name ++ "\n" := by
  have hw : get_max_width [[x, name]] true = x.utf8ByteSize := by
    simp [get_max_width]
  simp only [print_table, hw, List.length_cons, List.length_nil, List.headD_cons]
  simp [String.join, setw_succ, String.append_assoc]

theorem tabulate_single (n : Int) : tabulate [n] "" = [toString n] := by
  simp [tabulate]

theorem tabulate_labelled (n : Int) (name : String) (h : name.length ≠ 0) :
    tabulate [n] name = [toString n, name] := by
  simp [tabulate, h]

theorem to_counts_length (counters : List counter_id) (g : Globals) :
    (to_counts counters g).length = counters.length := by
  simp [to_counts]

/-- C15, as the code has it: the bare value is printed for the standard input,
a single named file keeps its label. For a locale whose `mbrtowc` keeps to its
C contract and reports an incomplete sequence only on fewer than
`sizeof(wchar_t)` bytes (so that every residual fits the buffer of
`process_stream` and the counting pass has a result) and a flag set that
selects exactly one counter: on the standard
input (no file name) the table is one row of one cell and `main` writes the
count and a line feed, nothing else; on a single file with a non-empty name
(the counter being named by one flag only) the row has two cells, the count
and the file name, and `main` writes a space, the count, a space, the file
name and a line feed. -/
theorem bare_value_only_for_standard_input (L : Locale) (hL : mbrtowc_contract L)
    (hsh : mbrtowc_incomplete_short L)
    (fs : FileSystem) (cin : List (List Byte)) (flags : Finset String) (fname : String)
    (g : Globals)
    (hone : (counters_from_arguments flags g).1.length = 1) :
    (∃ n : Int, (process_stdin L cin flags g).map Prod.fst = some [[toString n]]
      ∧ main L fs cin flags [] g = some (toString n ++ "\n"))
    ∧ (flags.card ≤ 1 → fname.length ≠ 0 →
        ∃ n : Int, (process_files L fs flags [fname] g).map Prod.fst
            = some [[toString n, fname]]
          ∧ main L fs cin flags [fname] g
            = some (" " ++ toString n ++ " " ++ fname ++ "\n")) := by
  constructor
  · obtain ⟨g1, hg1⟩ := process_stream_total _ (process_block_total_short L hL hsh) cin []
      (counters_from_arguments flags g).2 (Nat.zero_le _)
    have hlen := to_counts_length (counters_from_arguments flags g).1 g1
    rw [hone] at hlen
    obtain ⟨n, hn⟩ := List.length_eq_one.1 hlen
    refine ⟨n, ?_, ?_⟩
    · simp only [process_stdin, hg1, Option.map_some', hn, tabulate_single]
    · simp only [main, List.length_nil, if_true, process_stdin, hg1, Option.map_some', hn,
        tabulate_single, print_table_single]
  · intro hflags hname
    obtain ⟨counts, g1, hpf, hlen⟩ := process_file_total L hL hsh fs fname flags g
    rw [hone] at hlen
    obtain ⟨n, hn⟩ := List.length_eq_one.1 hlen
    subst hn
    obtain ⟨tot, htot, _⟩ := add_counts_some (List.replicate flags.card 0) [n]
      (by simpa using hflags)
    have htable : process_files L fs flags [fname] g = some ([[toString n, fname]], g1) := by
      simp [process_files, process_files_loop, hpf, htot, tabulate_labelled n fname hname]
    refine ⟨n, by rw [htable]; rfl, ?_⟩
    simp [main, htable, print_table_labelled]

/-- Witness for C15 as the code has it: `-l` on the two bytes x, line feed, as
the standard input and as the file `b`, in the sample single-byte locale. -/
theorem bare_value_only_for_standard_input_witness :
    mbrtowc_contract c_locale
    ∧ mbrtowc_incomplete_short c_locale
    ∧ (counters_from_arguments {"-l"} Globals.fresh).1.length = 1
    ∧ ({"-l"} : Finset String).card ≤ 1
    ∧ ("b" : String).length ≠ 0
    ∧ (∃ n : Int, (process_stdin c_locale [[120, 10]] {"-l"} Globals.fresh).map Prod.fst
          = some [[toString n]]
        ∧ main c_locale (sample_fs [("b", [120, 10])]) [[120, 10]] {"-l"} [] Globals.fresh
          = some (toString n ++ "\n"))
    ∧ (∃ n : Int, (process_files c_locale (sample_fs [("b", [120, 10])]) {"-l"} ["b"]
          Globals.fresh).map Prod.fst = some [[toString n, "b"]]
        ∧ main c_locale (sample_fs [("b", [120, 10])]) [[120, 10]] {"-l"} ["b"] Globals.fresh
          = some (" " ++ toString n ++ " " ++ "b" ++ "\n"))
    ∧ main c_locale (sample_fs [("b", [120, 10])]) [[120, 10]] {"-l"} [] Globals.fresh
        = some "1\n" :=
  ⟨c_locale_contract, c_locale_incomplete_short, by decide, by decide, by decide,
    (bare_value_only_for_standard_input c_locale c_locale_contract c_locale_incomplete_short
      (sample_fs [("b", [120, 10])]) [[120, 10]] {"-l"} "b" Globals.fresh (by decide)).1,
    (bare_value_only_for_standard_input c_locale c_locale_contract c_locale_incomplete_short
      (sample_fs [("b", [120, 10])]) [[120, 10]] {"-l"} "b" Globals.fresh (by decide)).2
      (by decide) (by decide),
    by decide⟩

/-- C15 fails as stated for a single named file: the row keeps the file name.
With `-l` on the single file `b` holding the two bytes x, line feed, in the
sample single-byte locale, the table is one row of two cells and `main` writes
a space, the count 1, a space, the name and a line feed, where the bare form
would be the count and a line feed. -/
theorem single_file_output_keeps_label :
    (process_files c_locale (sample_fs [("b", [120, 10])]) {"-l"} ["b"]
        Globals.fresh).map Prod.fst = some [["1", "b"]]
    ∧ main c_locale (sample_fs [("b", [120, 10])]) [] {"-l"} ["b"] Globals.fresh
        = some " 1 b\n"
    ∧ main c_locale (sample_fs [("b", [120, 10])]) [] {"-l"} ["b"] Globals.fresh
        ≠ some "1\n" := by
  decide

/-! ## The width of the reported counts -/

/-- C20: `to_counts` narrows the 64-bit count to 32 bits. A byte counter
holding 2147483648 is reported as -2147483648; with `-c` on a file whose
`st_size` is 2147483648 (2 GiB), whatever its contents, `process_files` yields
the row with -2147483648 and the file name. -/
theorem to_counts_narrows_to_int (contents : String → Option (List Byte)) :
    to_counts [counter_id.byte_counter]
        { Globals.fresh with byte_counter := { active := true, count := 2147483648 } }
      = [-2147483648]
    ∧ (process_file c_locale { st_size := fun _ => 2147483648, contents := contents } "big"
        {"-c"} Globals.fresh).map (fun r => (r.1, r.2.byte_counter.count))
      = some ([-2147483648], 2147483648)
    ∧ (process_files c_locale { st_size := fun _ => 2147483648, contents := contents }
        {"-c"} ["big"] Globals.fresh).map Prod.fst
      = some [["-2147483648", "big"]] := by
  have hpf : process_file c_locale { st_size := fun _ => 2147483648, contents := contents }
      "big" {"-c"} Globals.fresh
      = some ([-2147483648],
          { Globals.fresh with byte_counter := { active := false, count := 2147483648 } }) := by
    simp only [process_file]
    rfl
  refine ⟨by decide, by rw [hpf]; rfl, ?_⟩
  simp only [process_files, process_files_loop, hpf]
  decide

end Wcpp
